import Mathlib

/-!
Verification of the fact-extraction pipeline and HTTP handlers of the movie
trivia backend (src/app.py).  Strings are modelled as `List Char`; Python's
regular-expression character classes are modelled over their ASCII ranges
(`\s` as the six ASCII whitespace characters, `\d` as the ASCII digits),
plus the two non-ASCII bullet glyphs that the marker pattern names
explicitly.
-/

namespace MovieTrivia

/-- ASCII model of Python's regex class `\s` and of `str.strip()` whitespace. -/
def isSpace (c : Char) : Bool :=
  c = ' ' || c = '\t' || c = '\n' || c = '\r' || c = '\x0b' || c = '\x0c'

/-- ASCII model of Python's regex class `\d`. -/
def isDigit (c : Char) : Bool :=
  '0' ≤ c && c ≤ '9'

/-- The bullet glyphs of the marker pattern in `_clean_fact_line`:
`[-–••\*]` (the en dash U+2013, the bullet U+2022 listed twice, the
hyphen and the asterisk). -/
def isBullet (c : Char) : Bool :=
  c = '-' || c = '–' || c = '•' || c = '*'

/-- The punctuation allowed after the digits of a numeric marker: `[\.\)]`. -/
def isNumPunct (c : Char) : Bool :=
  c = '.' || c = ')'

/-- Sentence-terminal punctuation of the fallback split: `[\.\?\!]`. -/
def isTerm (c : Char) : Bool :=
  c = '.' || c = '?' || c = '!'

def notSpace (c : Char) : Bool := !isSpace c

/-- Python `str.lstrip()`. -/
def lstrip (l : List Char) : List Char := l.dropWhile isSpace

/-- Python `str.rstrip()`. -/
def rstrip (l : List Char) : List Char := (l.reverse.dropWhile isSpace).reverse

/-- Python `str.strip()`. -/
def strip (l : List Char) : List Char := lstrip (rstrip l)

/-- Prepend a character to the first piece of a split result. -/
def consHead (c : Char) : List (List Char) → List (List Char)
  | [] => [[c]]
  | l :: ls => (c :: l) :: ls

/-- Model of `re.split(r'\r?\n', text)` (app.py line 178): every `\r\n` pair
and every bare `\n` is a delimiter; a lone `\r` is ordinary text. -/
def lineSplit : List Char → List (List Char)
  | [] => [[]]
  | [c] => if c = '\n' then [[], []] else [[c]]
  | c :: d :: rest =>
    if c = '\r' && d = '\n' then [] :: lineSplit rest
    else if c = '\n' then [] :: lineSplit (d :: rest)
    else consHead c (lineSplit (d :: rest))

/-- The marker group of `_clean_fact_line`'s pattern
`(?:\d+[\.\)]\s*|[-–••\*]\s*)`, applied at the start of `l`:
on success, returns what remains of `l` after the marker and the trailing
whitespace.  The digit run and both `\s*` occurrences are forced maximal
(digits, the stop punctuation and whitespace are pairwise disjoint), so the
regex is deterministic and no backtracking case is lost. -/
def matchMarker (l : List Char) : Option (List Char) :=
  if l.takeWhile isDigit ≠ [] then
    match l.dropWhile isDigit with
    | p :: rest => if isNumPunct p then some (rest.dropWhile isSpace) else none
    | [] => none
  else
    match l with
    | b :: rest => if isBullet b then some (rest.dropWhile isSpace) else none
    | [] => none

/-- The single anchored substitution of `_clean_fact_line`
(`re.sub(r'^\s*(?:\d+[\.\)]\s*|[-–••\*]\s*)', '', line)`, app.py line
89): if the leading whitespace is followed by one marker, drop both;
otherwise the line is returned unchanged (the pattern is anchored, so
`re.sub` performs at most one replacement). -/
def stripMarker (l : List Char) : List Char :=
  match matchMarker (lstrip l) with
  | some r => r
  | none => l

/-- `_clean_fact_line` (app.py lines 86-90): strip one leading list marker,
then trim whitespace. -/
def clean_fact_line (l : List Char) : List Char :=
  strip (stripMarker l)

/-- Whether a string starts with a whitespace character. -/
def startsSpace : List Char → Bool
  | r :: _ => isSpace r
  | [] => false

/-- Model of `re.split(r'(?<=[\.\?\!])\s+', text)` (app.py line 188).
The flag records whether we are inside a delimiter's whitespace run (which
began right after sentence-terminal punctuation). -/
def sentGo : List Char → Bool → List (List Char)
  | [], _ => [[]]
  | c :: rest, skipping =>
    if skipping && isSpace c then sentGo rest true
    else if isTerm c && startsSpace rest then
      [c] :: sentGo rest true
    else consHead c (sentGo rest false)

def sentSplit (l : List Char) : List (List Char) := sentGo l false

/-- The sentence-fallback loop of `get_movie_facts` (app.py lines 189-194):
clean each sentence, keep the non-empty ones, stop as soon as 3 facts have
been collected. -/
def collectSentences : List (List Char) → List (List Char) → List (List Char)
  | [], facts => facts
  | s :: rest, facts =>
    let facts' := if clean_fact_line s = [] then facts else facts ++ [clean_fact_line s]
    if 3 ≤ facts'.length then facts' else collectSentences rest facts'

/-- Lines 179-183 of app.py applied to a list of already-split pieces:
strip each piece, drop empties, clean each survivor, drop empties. -/
def lineFactsFromPieces (ps : List (List Char)) : List (List Char) :=
  (((ps.map strip).filter (fun l => l ≠ [])).map clean_fact_line).filter (fun l => l ≠ [])

/-- The line strategy of `get_movie_facts` (app.py lines 178-183) on the
resolved text. -/
def lineFactsOf (rt : List Char) : List (List Char) :=
  lineFactsFromPieces (lineSplit rt)

/-- The stripped, non-empty sentences of the fallback (app.py line 188). -/
def sentencesOf (rt : List Char) : List (List Char) :=
  ((sentSplit rt).map strip).filter (fun l => l ≠ [])

/-- The sentence-fallback strategy of `get_movie_facts` (app.py lines 186-194). -/
def sentenceFactsOf (rt : List Char) : List (List Char) :=
  collectSentences (sentencesOf rt) []

/-- The full extraction pipeline of `get_movie_facts` (app.py lines 174-201),
from the resolved raw completion text to either the final fact list or the
zero-facts failure (`none`, surfaced by the handler as HTTP 500):
strip the text, try the line strategy, fall back to sentences if it yielded
nothing, fail on an empty result, else truncate to 6 facts. -/
def get_movie_facts_extract (raw : List Char) : Option (List (List Char)) :=
  let rt := strip raw
  let facts := lineFactsOf rt
  let facts2 := if facts = [] then sentenceFactsOf rt else facts
  if facts2 = [] then none else some (facts2.take 6)

/-! ### The HTTP handlers (request-level glue around the extractor) -/

/-- Outcome of an upstream HTTP fetch as the handler observes it: a response
carrying a status code and a parsed JSON body, or a raised exception
(connection error, timeout, or a body that fails to parse). -/
inductive Upstream (α : Type) where
  | resp (status : Nat) (body : α)
  | exn
deriving DecidableEq

/-- The fields of a TMDB movie JSON object that the handlers read; `none`
models a missing key. -/
structure TmdbMovie where
  id : Option Int
  title : Option (List Char)
  original_title : Option (List Char)
  release_date : Option (List Char)
  poster_path : Option (List Char)
deriving DecidableEq

/-- Python truthiness of `movie.get(key)`: false for a missing key (None)
and for the empty string. -/
def truthy : Option (List Char) → Bool
  | some s => !s.isEmpty
  | none => false

/-- Title of a search result (app.py line 75):
`movie.get("title") or movie.get("original_title")`. -/
def searchTitle (m : TmdbMovie) : Option (List Char) :=
  if truthy m.title then m.title else m.original_title

/-- Title in the detail route (app.py line 117):
`movie.get("title") or movie.get("original_title") or "Unknown Title"`. -/
def movieTitle (m : TmdbMovie) : List Char :=
  if truthy m.title then m.title.getD []
  else if truthy m.original_title then m.original_title.getD []
  else "Unknown Title".data

/-- Year field, identical expression in both routes (app.py lines 76 and 118):
`(movie.get("release_date") or "")[:4] if movie.get("release_date") else ""`. -/
def movieYear (m : TmdbMovie) : List Char :=
  if truthy m.release_date then (m.release_date.getD []).take 4 else []

/-- Poster URL of a search result (app.py line 77): the w200 size variant. -/
def searchPoster (m : TmdbMovie) : Option (List Char) :=
  if truthy m.poster_path then
    some ("https://image.tmdb.org/t/p/w200".data ++ m.poster_path.getD [])
  else none

/-- Poster URL in the detail route (app.py line 119): the w500 size variant. -/
def detailPoster (m : TmdbMovie) : Option (List Char) :=
  if truthy m.poster_path then
    some ("https://image.tmdb.org/t/p/w500".data ++ m.poster_path.getD [])
  else none

/-- One entry of the `/search_movies` response array (app.py lines 72-79). -/
structure SearchItem where
  id : Option Int
  title : Option (List Char)
  year : List Char
  poster : Option (List Char)
deriving DecidableEq

def mkSearchItem (m : TmdbMovie) : SearchItem :=
  { id := m.id, title := searchTitle m, year := movieYear m, poster := searchPoster m }

/-- The `/search_movies` handler (app.py lines 43-83) as a function of the
query string, whether TMDB_API_KEY is set, and the upstream fetch outcome
(the parsed body is `data.get("results", [])`; a missing key is the empty
list).  Returns the HTTP status and the response array. -/
def search_movies (query : List Char) (tmdbKeySet : Bool)
    (fetch : Upstream (List TmdbMovie)) : Nat × List SearchItem :=
  if strip query = [] then (200, [])
  else if !tmdbKeySet then (200, [])
  else match fetch with
    | .resp st movies => if st ≠ 200 then (200, []) else (200, movies.map mkSearchItem)
    | .exn => (200, [])

/-- Body of a successful `/get_movie_facts` response (app.py line 203). -/
structure MovieFactsPayload where
  title : List Char
  year : List Char
  poster : Option (List Char)
  facts : List (List Char)
deriving DecidableEq

/-- A `/get_movie_facts` response: 200 with a payload, 400 with an error
message, or 500 with an error message. -/
inductive FactsResponse where
  | ok (payload : MovieFactsPayload)
  | clientError (msg : List Char)
  | serverError (msg : List Char)
deriving DecidableEq

def FactsResponse.status : FactsResponse → Nat
  | .ok _ => 200
  | .clientError _ => 400
  | .serverError _ => 500

/-- Outcome of the Anthropic completion call as the handler observes it:
the resolved raw text (after the shape-resolution chain of app.py lines
150-174), or an exception during the request or parse. -/
inductive CompletionOutcome where
  | success (raw : List Char)
  | failure
deriving DecidableEq

/-- The synthetic placeholder fact of the degraded path (app.py line 131):
`f"Anthropic not configured on server. Movie: {title} ({year})."`. -/
def placeholderFact (title year : List Char) : List Char :=
  "Anthropic not configured on server. Movie: ".data ++ title
    ++ " (".data ++ year ++ ").".data

/-- The `/get_movie_facts` handler (app.py lines 93-206) as a function of the
`movie_id` parameter, whether TMDB_API_KEY is set, the TMDB detail fetch
outcome, whether the Anthropic client is configured, and the completion
outcome. -/
def get_movie_facts_handler (movie_id : List Char) (tmdbKeySet : Bool)
    (tmdb : Upstream TmdbMovie) (anthropicSet : Bool)
    (completion : CompletionOutcome) : FactsResponse :=
  if strip movie_id = [] then .clientError "Missing movie_id".data
  else if !tmdbKeySet then .serverError "Server not configured (TMDB missing)".data
  else match tmdb with
    | .exn => .serverError "Failed to fetch movie details".data
    | .resp st m =>
      if st ≠ 200 then .serverError "Failed to fetch movie details".data
      else if !anthropicSet then
        .ok ⟨movieTitle m, movieYear m, detailPoster m,
             [placeholderFact (movieTitle m) (movieYear m)]⟩
      else match completion with
        | .failure => .serverError "Problem generating trivia".data
        | .success raw =>
          match get_movie_facts_extract raw with
          | none => .serverError "No facts could be generated".data
          | some facts => .ok ⟨movieTitle m, movieYear m, detailPoster m, facts⟩

/-- The spec's claimed shape of the year field: a 4-digit string or empty. -/
def specYearShape (y : List Char) : Bool :=
  y.isEmpty || (y.length == 4 && y.all isDigit)

/-! ### Constructions used to state the extractor claims -/

def digitChar : Nat → Char
  | 0 => '0' | 1 => '1' | 2 => '2' | 3 => '3' | 4 => '4'
  | 5 => '5' | 6 => '6' | 7 => '7' | 8 => '8' | 9 => '9'
  | _ => '0'

/-- Decimal digits of a positive number, most significant first; the first
argument is fuel (any value at least the argument works). -/
def natDigitsAux : Nat → Nat → List Char
  | _, 0 => []
  | 0, _ + 1 => []
  | fuel + 1, n + 1 => natDigitsAux fuel ((n + 1) / 10) ++ [digitChar ((n + 1) % 10)]

/-- Decimal numeral of a natural number, as characters. -/
def natDigits (n : Nat) : List Char :=
  if n = 0 then ['0'] else natDigitsAux n n

/-- The line numbered `k`: the numeral, then `". "`, then the body — the
shape the claims write as a line prefixed with a numeric marker. -/
def numLine (k : Nat) (b : List Char) : List Char :=
  natDigits k ++ '.' :: ' ' :: b

/-- Bodies turned into lines numbered `k+1`, `k+2`, ... -/
def numberedLines : Nat → List (List Char) → List (List Char)
  | _, [] => []
  | k, b :: bs => numLine (k + 1) b :: numberedLines (k + 1) bs

/-- Join pieces with a newline between consecutive pieces. -/
def joinNL : List (List Char) → List Char
  | [] => []
  | [l] => l
  | l :: ls => l ++ '\n' :: joinNL ls

/-- Maximal runs of non-whitespace characters, in order. -/
def words : List Char → List (List Char)
  | [] => []
  | c :: rest =>
    if isSpace c then words rest
    else (c :: rest.takeWhile notSpace) :: words (rest.dropWhile notSpace)
  termination_by l => l.length
  decreasing_by
    all_goals
      have := (List.dropWhile_sublist (l := rest) notSpace).length_le
      simp only [List.length_cons]
      omega

/-- A whitespace-free word that is exactly one enumeration marker:
digits followed by `.` or `)`, or a single bullet glyph. -/
def isMarkerWord (w : List Char) : Bool :=
  (match w with | [b] => isBullet b | _ => false) ||
  (!(w.takeWhile isDigit).isEmpty &&
    (match w.dropWhile isDigit with | [p] => isNumPunct p | _ => false))

/-- Inverse of `lineSplit`: the ways a piece list can be glued back with the
delimiters `\n` and `\r\n` to a text. -/
inductive LineJoin : List (List Char) → List Char → Prop where
  | single (l : List Char) : LineJoin [l] l
  | lf (l : List Char) {ps : List (List Char)} {x : List Char} :
      LineJoin ps x → LineJoin (l :: ps) (l ++ '\n' :: x)
  | crlf (l : List Char) {ps : List (List Char)} {x : List Char} :
      LineJoin ps x → LineJoin (l :: ps) (l ++ '\r' :: '\n' :: x)

/-- Inverse of `sentSplit`: the ways a piece list can be glued back with
non-empty whitespace runs to a text. -/
inductive SentJoin : List (List Char) → List Char → Prop where
  | single (l : List Char) : SentJoin [l] l
  | cons (l ws : List Char) {ps : List (List Char)} {x : List Char} :
      ws ≠ [] → (∀ c ∈ ws, isSpace c = true) → SentJoin ps x →
      SentJoin (l :: ps) (l ++ ws ++ x)

/-- Shape of one enumeration marker exactly as `_clean_fact_line`'s pattern
matches it: one or more digits followed by `.` or `)`, or a single bullet
glyph.  `ok` states well-formedness. -/
inductive MarkerShape where
  | num (ds : List Char) (p : Char)
  | bull (b : Char)

def MarkerShape.chars : MarkerShape → List Char
  | .num ds p => ds ++ [p]
  | .bull b => [b]

def MarkerShape.ok : MarkerShape → Bool
  | .num ds p => !ds.isEmpty && ds.all isDigit && isNumPunct p
  | .bull b => isBullet b

/-! ### Character-class facts -/

theorem space_cases {c : Char} (h : isSpace c = true) :
    c = ' ' ∨ c = '\t' ∨ c = '\n' ∨ c = '\r' ∨ c = '\x0b' ∨ c = '\x0c' := by
  simp [isSpace] at h
  tauto

theorem bullet_cases {c : Char} (h : isBullet c = true) :
    c = '-' ∨ c = '–' ∨ c = '•' ∨ c = '*' := by
  simp [isBullet] at h
  tauto

theorem numPunct_cases {c : Char} (h : isNumPunct c = true) : c = '.' ∨ c = ')' := by
  simpa [isNumPunct] using h

theorem isSpace_false_of_isDigit {c : Char} (h : isDigit c = true) : isSpace c = false := by
  cases hs : isSpace c
  · rfl
  · rcases space_cases hs with rfl | rfl | rfl | rfl | rfl | rfl <;> exact absurd h (by decide)

theorem isSpace_false_of_isBullet {c : Char} (h : isBullet c = true) : isSpace c = false := by
  rcases bullet_cases h with rfl | rfl | rfl | rfl <;> decide

theorem isDigit_false_of_isBullet {c : Char} (h : isBullet c = true) : isDigit c = false := by
  rcases bullet_cases h with rfl | rfl | rfl | rfl <;> decide

theorem isSpace_false_of_isNumPunct {c : Char} (h : isNumPunct c = true) : isSpace c = false := by
  rcases numPunct_cases h with rfl | rfl <;> decide

theorem isDigit_false_of_isNumPunct {c : Char} (h : isNumPunct c = true) : isDigit c = false := by
  rcases numPunct_cases h with rfl | rfl <;> decide

theorem notSpace_eq_false {c : Char} : notSpace c = false ↔ isSpace c = true := by
  simp [notSpace]

/-! ### takeWhile and dropWhile helpers -/

theorem dropWhile_append_of_ne_nil {p : Char → Bool} {u v : List Char}
    (h : u.dropWhile p ≠ []) : (u ++ v).dropWhile p = u.dropWhile p ++ v := by
  rw [List.dropWhile_append, if_neg]
  simpa [List.isEmpty_iff] using h

theorem dropWhile_append_of_all {p : Char → Bool} {u v : List Char}
    (h : ∀ c ∈ u, p c = true) : (u ++ v).dropWhile p = v.dropWhile p := by
  induction u with
  | nil => rfl
  | cons c u ih =>
    have hc : p c = true := h c (by simp)
    simp only [List.cons_append, List.dropWhile_cons, hc, if_true]
    exact ih fun d hd => h d (by simp [hd])

theorem takeWhile_append_of_all {p : Char → Bool} {u v : List Char}
    (h : ∀ c ∈ u, p c = true) : (u ++ v).takeWhile p = u ++ v.takeWhile p := by
  induction u with
  | nil => rfl
  | cons c u ih =>
    have hc : p c = true := h c (by simp)
    simp only [List.cons_append, List.takeWhile_cons, hc, if_true]
    rw [ih fun d hd => h d (by simp [hd])]

theorem dropWhile_head_false {p : Char → Bool} {l : List Char} {c : Char} {t : List Char}
    (h : l.dropWhile p = c :: t) : p c = false := by
  induction l with
  | nil => simp at h
  | cons d l ih =>
    rw [List.dropWhile_cons] at h
    by_cases hd : p d = true
    · rw [if_pos hd] at h; exact ih h
    · rw [if_neg hd] at h
      cases h
      exact Bool.eq_false_iff.mpr hd

theorem all_of_dropWhile_eq_nil {p : Char → Bool} {l : List Char}
    (h : l.dropWhile p = []) : ∀ c ∈ l, p c = true :=
  List.dropWhile_eq_nil_iff.mp h

/-! ### strip lemmas -/

theorem rstrip_eq_reverse_lstrip (l : List Char) : rstrip l = (lstrip l.reverse).reverse := rfl

theorem lstrip_nil : lstrip [] = [] := rfl

theorem rstrip_nil : rstrip [] = [] := rfl

theorem strip_nil : strip [] = [] := rfl

theorem lstrip_cons_of_space {c : Char} {l : List Char} (h : isSpace c = true) :
    lstrip (c :: l) = lstrip l := by
  simp [lstrip, List.dropWhile_cons, h]

theorem lstrip_cons_of_nonspace {c : Char} {l : List Char} (h : isSpace c = false) :
    lstrip (c :: l) = c :: l := by
  simp [lstrip, List.dropWhile_cons, h]

theorem lstrip_idem (l : List Char) : lstrip (lstrip l) = lstrip l :=
  List.dropWhile_idempotent _ _

theorem rstrip_idem (l : List Char) : rstrip (rstrip l) = rstrip l := by
  simp [rstrip_eq_reverse_lstrip, List.reverse_reverse, lstrip_idem]

theorem lstrip_head_false {l : List Char} {c : Char} {t : List Char}
    (h : lstrip l = c :: t) : isSpace c = false :=
  dropWhile_head_false h

theorem lstrip_eq_self_of_head {l : List Char} {c : Char}
    (h : l.head? = some c) (hc : isSpace c = false) : lstrip l = l := by
  cases l with
  | nil => rfl
  | cons d t =>
    cases h
    exact lstrip_cons_of_nonspace hc

theorem rstrip_eq_self_of_getLast {l : List Char} {c : Char}
    (h : l.getLast? = some c) (hc : isSpace c = false) : rstrip l = l := by
  rw [rstrip_eq_reverse_lstrip,
    lstrip_eq_self_of_head (by rwa [List.head?_reverse]) hc, List.reverse_reverse]

theorem rstrip_getLast_false {l : List Char} {c : Char}
    (h : (rstrip l).getLast? = some c) : isSpace c = false := by
  rw [rstrip_eq_reverse_lstrip, List.getLast?_eq_head?_reverse, List.reverse_reverse] at h
  cases hl : lstrip l.reverse with
  | nil => rw [hl] at h; simp at h
  | cons d t => rw [hl] at h; cases h; exact lstrip_head_false hl

theorem rstrip_spec (l : List Char) :
    ∃ ws, l = rstrip l ++ ws ∧ ∀ c ∈ ws, isSpace c = true := by
  refine ⟨(l.reverse.takeWhile isSpace).reverse, ?_, ?_⟩
  · have key : l.reverse.takeWhile isSpace ++ l.reverse.dropWhile isSpace = l.reverse :=
      List.takeWhile_append_dropWhile isSpace l.reverse
    calc l = l.reverse.reverse := (List.reverse_reverse l).symm
      _ = (l.reverse.takeWhile isSpace ++ l.reverse.dropWhile isSpace).reverse := by rw [key]
      _ = (l.reverse.dropWhile isSpace).reverse ++ (l.reverse.takeWhile isSpace).reverse := by
          rw [List.reverse_append]
      _ = rstrip l ++ (l.reverse.takeWhile isSpace).reverse := rfl
  · intro c hc
    rw [List.mem_reverse] at hc
    exact List.mem_takeWhile_imp hc

theorem rstrip_append_of_ne_nil {a b : List Char} (h : rstrip b ≠ []) :
    rstrip (a ++ b) = a ++ rstrip b := by
  have hb : b.reverse.dropWhile isSpace ≠ [] := by
    intro he
    apply h
    simp [rstrip, he]
  rw [rstrip_eq_reverse_lstrip, List.reverse_append, lstrip,
    dropWhile_append_of_ne_nil hb, List.reverse_append, List.reverse_reverse]
  rfl

theorem lstrip_ne_nil_of_strip_ne_nil {l : List Char} (h : strip l ≠ []) : rstrip l ≠ [] := by
  intro he
  apply h
  simp [strip, he, lstrip_nil]

theorem strip_getLast?_eq {l : List Char} (h : strip l ≠ []) :
    (strip l).getLast? = (rstrip l).getLast? := by
  have hd : rstrip l = (rstrip l).takeWhile isSpace ++ strip l := by
    conv_lhs => rw [← List.takeWhile_append_dropWhile (p := isSpace) (l := rstrip l)]
    rfl
  conv_rhs => rw [hd]
  rw [List.getLast?_append]
  cases hs : (strip l).getLast? with
  | none => simp [List.getLast?_isSome] at hs; exact absurd hs h
  | some c => simp

theorem strip_getLast_false {l : List Char} {c : Char}
    (h : (strip l).getLast? = some c) : isSpace c = false := by
  have hne : strip l ≠ [] := by intro he; rw [he] at h; simp at h
  rw [strip_getLast?_eq hne] at h
  exact rstrip_getLast_false h

theorem strip_head_false {l : List Char} {c : Char} {t : List Char}
    (h : strip l = c :: t) : isSpace c = false :=
  lstrip_head_false h

theorem rstrip_strip (l : List Char) : rstrip (strip l) = strip l := by
  cases hs : (strip l).getLast? with
  | none =>
    rw [List.getLast?_eq_none_iff] at hs
    rw [hs, rstrip_nil]
  | some d =>
    exact rstrip_eq_self_of_getLast hs (strip_getLast_false hs)

theorem strip_idem (l : List Char) : strip (strip l) = strip l := by
  rw [strip, rstrip_strip]
  exact lstrip_idem _

theorem strip_rstrip (l : List Char) : strip (rstrip l) = strip l := by
  rw [strip, rstrip_idem]
  rfl

theorem rstrip_sublist (l : List Char) : (rstrip l).Sublist l := by
  have h : (l.reverse.dropWhile isSpace).Sublist l.reverse := List.dropWhile_sublist _
  simpa [rstrip] using h.reverse

theorem strip_sublist (l : List Char) : (strip l).Sublist l :=
  (List.dropWhile_sublist _).trans (rstrip_sublist l)

theorem strip_eq_nil_iff {l : List Char} : strip l = [] ↔ ∀ c ∈ l, isSpace c = true := by
  constructor
  · intro h c hc
    obtain ⟨ws, hws, hsp⟩ := rstrip_spec l
    have hall : ∀ c ∈ rstrip l, isSpace c = true := all_of_dropWhile_eq_nil h
    rw [hws] at hc
    rcases List.mem_append.mp hc with h1 | h1
    · exact hall c h1
    · exact hsp c h1
  · intro h
    have h1 : rstrip l = [] := by
      rw [rstrip_eq_reverse_lstrip, List.reverse_eq_nil_iff]
      exact List.dropWhile_eq_nil_iff.mpr fun c hc => h c (List.mem_reverse.mp hc)
    rw [strip, h1, lstrip_nil]

/-! ### lineSplit lemmas -/

theorem consHead_ne_nil (c : Char) (ps : List (List Char)) : consHead c ps ≠ [] := by
  cases ps <;> simp [consHead]

theorem lineSplit_cons_cons {c d : Char} {rest : List Char}
    (h : ¬(c = '\r' ∧ d = '\n')) (hc : ¬c = '\n') :
    lineSplit (c :: d :: rest) = consHead c (lineSplit (d :: rest)) := by
  show (if c = '\r' && d = '\n' then [] :: lineSplit rest
    else if c = '\n' then [] :: lineSplit (d :: rest)
    else consHead c (lineSplit (d :: rest))) = _
  rw [if_neg (by simpa using h), if_neg hc]

theorem lineSplit_cons_nl (t : List Char) : lineSplit ('\n' :: t) = [] :: lineSplit t := by
  cases t with
  | nil => rfl
  | cons d rest => simp [lineSplit]

theorem lineSplit_ne_nil (x : List Char) : lineSplit x ≠ [] := by
  induction x using lineSplit.induct with
  | case1 => simp [lineSplit]
  | case2 => simp [lineSplit]
  | case3 c hc => simp [lineSplit, hc]
  | case4 c d rest hcd ih =>
    have h1 : c = '\r' ∧ d = '\n' := by simpa using hcd
    obtain ⟨rfl, rfl⟩ := h1
    rw [show lineSplit ('\r' :: '\n' :: rest) = [] :: lineSplit rest by simp [lineSplit]]
    simp
  | case5 d rest hcd ih =>
    rw [lineSplit_cons_nl]
    simp
  | case6 c d rest hcd hc ih =>
    rw [lineSplit_cons_cons (by simpa using hcd) hc]
    exact consHead_ne_nil _ _

theorem lineSplit_single {l : List Char} (h : '\n' ∉ l) : lineSplit l = [l] := by
  induction l with
  | nil => rfl
  | cons c t ih =>
    have hc : ¬c = '\n' := fun he => h (he ▸ List.mem_cons_self c t)
    have ht : '\n' ∉ t := fun he => h (List.mem_cons_of_mem c he)
    cases t with
    | nil => simp [lineSplit, hc]
    | cons d rest =>
      have hd : ¬d = '\n' := fun he => ht (he ▸ List.mem_cons_self d rest)
      simp [lineSplit, hc, hd, consHead, ih ht]

theorem lineSplit_append_nl {l : List Char} (t : List Char) (hn : '\n' ∉ l)
    (hr : l.getLast? ≠ some '\r') :
    lineSplit (l ++ '\n' :: t) = l :: lineSplit t := by
  induction l with
  | nil => simpa using lineSplit_cons_nl t
  | cons c l' ih =>
    have hc : ¬c = '\n' := fun he => hn (he ▸ List.mem_cons_self c l')
    have hn' : '\n' ∉ l' := fun he => hn (List.mem_cons_of_mem c he)
    cases l' with
    | nil =>
      have hcr : ¬c = '\r' := by
        intro he
        exact hr (by simp [he])
      simp [lineSplit, hc, hcr, lineSplit_cons_nl, consHead]
    | cons d l'' =>
      have hr' : (d :: l'').getLast? ≠ some '\r' := by
        rwa [List.getLast?_cons_cons] at hr
      have hd : ¬d = '\n' := fun he => hn' (he ▸ List.mem_cons_self d l'')
      have := ih hn' hr'
      simp only [List.cons_append] at this ⊢
      simp [lineSplit, hc, hd, consHead, this]

theorem mem_consHead {c : Char} {ps : List (List Char)} {l : List Char}
    (h : l ∈ consHead c ps) :
    (∃ p, ps.head? = some p ∧ l = c :: p) ∨ l ∈ ps.tail ∨ (ps = [] ∧ l = [c]) := by
  cases ps with
  | nil =>
    simp only [consHead, List.mem_singleton] at h
    exact Or.inr (Or.inr ⟨rfl, h⟩)
  | cons p ts =>
    rcases List.mem_cons.mp h with rfl | h
    · exact Or.inl ⟨p, rfl, rfl⟩
    · exact Or.inr (Or.inl h)

theorem lineSplit_pieces_no_nl {x : List Char} : ∀ l ∈ lineSplit x, '\n' ∉ l := by
  induction x using lineSplit.induct with
  | case1 => simp [lineSplit]
  | case2 => simp [lineSplit]
  | case3 c hc =>
    intro l hl
    rw [show lineSplit [c] = [[c]] from if_neg hc] at hl
    rcases List.mem_singleton.mp hl with rfl
    simp only [List.mem_singleton]
    exact fun he => hc he.symm
  | case4 c d rest hcd ih =>
    have h1 : c = '\r' ∧ d = '\n' := by simpa using hcd
    obtain ⟨rfl, rfl⟩ := h1
    intro l hl
    rw [show lineSplit ('\r' :: '\n' :: rest) = [] :: lineSplit rest by simp [lineSplit]] at hl
    rcases List.mem_cons.mp hl with rfl | hl
    · simp
    · exact ih l hl
  | case5 d rest hcd ih =>
    intro l hl
    rw [lineSplit_cons_nl] at hl
    rcases List.mem_cons.mp hl with rfl | hl
    · simp
    · exact ih l hl
  | case6 c d rest hcd hc ih =>
    intro l hl
    rw [lineSplit_cons_cons (by simpa using hcd) hc] at hl
    rcases mem_consHead hl with ⟨p, hp, rfl⟩ | htl | ⟨hps, rfl⟩
    · intro hm
      rcases List.mem_cons.mp hm with he | hm
      · exact hc he.symm
      · exact ih p (List.mem_of_mem_head? hp) hm
    · exact ih l (List.mem_of_mem_tail htl)
    · exact absurd hps (lineSplit_ne_nil _)

theorem lineJoin_consHead {c : Char} {ps : List (List Char)} {x : List Char}
    (h : LineJoin ps x) : LineJoin (consHead c ps) (c :: x) := by
  cases h with
  | single a => exact LineJoin.single _
  | lf a h' => exact LineJoin.lf _ h'
  | crlf a h' => exact LineJoin.crlf _ h'

theorem lineSplit_lineJoin (x : List Char) : LineJoin (lineSplit x) x := by
  induction x using lineSplit.induct with
  | case1 => exact LineJoin.single []
  | case2 => exact LineJoin.lf [] (LineJoin.single [])
  | case3 c hc =>
    rw [show lineSplit [c] = [[c]] by simp [lineSplit, hc]]
    exact LineJoin.single [c]
  | case4 c d rest hcd ih =>
    have h1 : c = '\r' ∧ d = '\n' := by simpa using hcd
    obtain ⟨rfl, rfl⟩ := h1
    rw [show lineSplit ('\r' :: '\n' :: rest) = [] :: lineSplit rest by simp [lineSplit]]
    exact LineJoin.crlf [] ih
  | case5 d rest hcd ih =>
    rw [lineSplit_cons_nl]
    exact LineJoin.lf [] ih
  | case6 c d rest hcd hc ih =>
    rw [show lineSplit (c :: d :: rest) = consHead c (lineSplit (d :: rest)) by
      simp [lineSplit, hcd, hc]]
    exact lineJoin_consHead ih

/-! ### matchMarker and clean_fact_line lemmas -/

theorem matchMarker_digits {ds : List Char} {p : Char} {r : List Char}
    (hds : ds ≠ []) (hall : ∀ c ∈ ds, isDigit c = true) (hp : isNumPunct p = true) :
    matchMarker (ds ++ p :: r) = some (r.dropWhile isSpace) := by
  have hpd : ¬isDigit p = true := by simp [isDigit_false_of_isNumPunct hp]
  have ht : (ds ++ p :: r).takeWhile isDigit = ds := by
    rw [takeWhile_append_of_all hall, List.takeWhile_cons_of_neg hpd, List.append_nil]
  have hd : (ds ++ p :: r).dropWhile isDigit = p :: r := by
    rw [dropWhile_append_of_all hall, List.dropWhile_cons_of_neg hpd]
  unfold matchMarker
  rw [ht, hd, if_pos hds]
  simp [hp]

theorem matchMarker_bullet {b : Char} {r : List Char} (hb : isBullet b = true) :
    matchMarker (b :: r) = some (r.dropWhile isSpace) := by
  have ht : (b :: r).takeWhile isDigit = [] :=
    List.takeWhile_cons_of_neg (by simp [isDigit_false_of_isBullet hb])
  unfold matchMarker
  rw [ht]
  simp [hb]

theorem matchMarker_some_sublist {x r : List Char} (h : matchMarker x = some r) :
    r.Sublist x := by
  unfold matchMarker at h
  by_cases hd : x.takeWhile isDigit ≠ []
  · rw [if_pos hd] at h
    cases he : x.dropWhile isDigit with
    | nil => rw [he] at h; cases h
    | cons p rest =>
      rw [he] at h
      have h' : (if isNumPunct p = true then some (rest.dropWhile isSpace) else none)
          = some r := h
      by_cases hp : isNumPunct p = true
      · rw [if_pos hp] at h'
        cases h'
        have h2 : (p :: rest).Sublist x := he ▸ List.dropWhile_sublist _
        exact (List.dropWhile_sublist _).trans ((List.sublist_cons_self p rest).trans h2)
      · rw [if_neg hp] at h'; cases h'
  · rw [if_neg hd] at h
    cases x with
    | nil => cases h
    | cons b rest =>
      have h' : (if isBullet b = true then some (rest.dropWhile isSpace) else none)
          = some r := h
      by_cases hb : isBullet b = true
      · rw [if_pos hb] at h'
        cases h'
        exact (List.dropWhile_sublist _).trans (List.sublist_cons_self b rest)
      · rw [if_neg hb] at h'; cases h'

theorem stripMarker_sublist (l : List Char) : (stripMarker l).Sublist l := by
  unfold stripMarker
  cases hm : matchMarker (lstrip l) with
  | none => exact List.Sublist.refl l
  | some r =>
    exact (matchMarker_some_sublist hm).trans (List.dropWhile_sublist _)

theorem clean_sublist (l : List Char) : (clean_fact_line l).Sublist l := by
  unfold clean_fact_line
  exact (strip_sublist _).trans (stripMarker_sublist l)

theorem strip_clean (l : List Char) : strip (clean_fact_line l) = clean_fact_line l := by
  unfold clean_fact_line
  exact strip_idem _

theorem clean_nil : clean_fact_line [] = [] := rfl

theorem clean_of_no_marker {l : List Char} (h : matchMarker (lstrip l) = none) :
    clean_fact_line l = strip l := by
  unfold clean_fact_line stripMarker
  rw [h]

/-! ### Numeral lemmas -/

theorem isDigit_digitChar (d : Nat) : isDigit (digitChar d) = true := by
  unfold digitChar
  split <;> decide

theorem natDigitsAux_all_digit :
    ∀ fuel n, ∀ c ∈ natDigitsAux fuel n, isDigit c = true := by
  intro fuel
  induction fuel with
  | zero =>
    intro n c hc
    cases n <;> simp [natDigitsAux] at hc
  | succ fuel ih =>
    intro n c hc
    cases n with
    | zero => simp [natDigitsAux] at hc
    | succ m =>
      simp only [natDigitsAux] at hc
      rcases List.mem_append.mp hc with h | h
      · exact ih _ c h
      · rcases List.mem_singleton.mp h with rfl
        exact isDigit_digitChar _

theorem natDigits_all_digit (n : Nat) : ∀ c ∈ natDigits n, isDigit c = true := by
  unfold natDigits
  split
  · intro c hc
    rcases List.mem_singleton.mp hc with rfl
    decide
  · exact natDigitsAux_all_digit n n

theorem natDigits_ne_nil (n : Nat) : natDigits n ≠ [] := by
  unfold natDigits
  split
  · simp
  · rename_i h
    cases n with
    | zero => exact absurd rfl h
    | succ m => simp [natDigitsAux]

theorem digit_ne_nl {c : Char} (h : isDigit c = true) : c ≠ '\n' := by
  rintro rfl
  exact absurd h (by decide)

theorem digit_ne_cr {c : Char} (h : isDigit c = true) : c ≠ '\r' := by
  rintro rfl
  exact absurd h (by decide)

/-! ### numLine and joinNL lemmas -/

theorem mem_numLine {c : Char} {k : Nat} {b : List Char} (h : c ∈ numLine k b) :
    c ∈ natDigits k ∨ c = '.' ∨ c = ' ' ∨ c ∈ b := by
  unfold numLine at h
  rcases List.mem_append.mp h with h | h
  · exact Or.inl h
  · rcases List.mem_cons.mp h with h | h
    · exact Or.inr (Or.inl h)
    · rcases List.mem_cons.mp h with h | h
      · exact Or.inr (Or.inr (Or.inl h))
      · exact Or.inr (Or.inr (Or.inr h))

theorem numLine_no_nl {k : Nat} {b : List Char} (hb : '\n' ∉ b) : '\n' ∉ numLine k b := by
  intro h
  rcases mem_numLine h with h | h | h | h
  · exact digit_ne_nl (natDigits_all_digit k _ h) rfl
  · exact absurd h (by decide)
  · exact absurd h (by decide)
  · exact hb h

theorem numLine_getLast?_of_ne_nil {k : Nat} {b : List Char} (hb : b ≠ []) :
    (numLine k b).getLast? = b.getLast? := by
  unfold numLine
  rw [List.getLast?_append]
  cases b with
  | nil => exact absurd rfl hb
  | cons x xs =>
    rw [List.getLast?_cons_cons, List.getLast?_cons_cons]
    cases hg : (x :: xs).getLast? with
    | none => exact absurd (List.getLast?_eq_none_iff.mp hg) (by simp)
    | some c => simp

theorem joinNL_cons {l : List Char} {ls : List (List Char)} (h : ls ≠ []) :
    joinNL (l :: ls) = l ++ '\n' :: joinNL ls := by
  cases ls with
  | nil => exact absurd rfl h
  | cons a as => rfl

theorem joinNL_append {ps qs : List (List Char)} (hps : ps ≠ []) (hqs : qs ≠ []) :
    joinNL (ps ++ qs) = joinNL ps ++ '\n' :: joinNL qs := by
  induction ps with
  | nil => exact absurd rfl hps
  | cons p ps ih =>
    cases ps with
    | nil =>
      rw [List.singleton_append, joinNL_cons hqs]
      rfl
    | cons p2 ps2 =>
      rw [List.cons_append, joinNL_cons (by simp), joinNL_cons (by simp : (p2 :: ps2) ≠ []),
        ih (by simp)]
      simp [List.append_assoc]

/-! ### The line-facts pipeline on constructed numbered lines -/

theorem lineFactsFromPieces_cons (p : List Char) (ps : List (List Char)) :
    lineFactsFromPieces (p :: ps) =
      (if clean_fact_line (strip p) = [] then [] else [clean_fact_line (strip p)])
        ++ lineFactsFromPieces ps := by
  unfold lineFactsFromPieces
  by_cases hsp : strip p = []
  · rw [List.map_cons, hsp, List.filter_cons, if_neg (by simp), clean_nil]
    simp
  · simp only [List.map_cons, List.filter_cons]
    rw [if_pos (by simp [hsp])]
    simp only [List.map_cons, List.filter_cons]
    by_cases hc : clean_fact_line (strip p) = []
    · rw [if_neg (by simp [hc]), if_pos hc]
      rfl
    · rw [if_pos (by simp [hc]), if_neg hc]
      rfl

theorem strip_numLine_eq {k : Nat} {b : List Char} (hb : strip b ≠ []) :
    strip (numLine k b) = numLine k (rstrip b) := by
  have hrb : rstrip b ≠ [] := lstrip_ne_nil_of_strip_ne_nil hb
  have h1 : rstrip (numLine k b) = numLine k (rstrip b) := by
    unfold numLine
    rw [show natDigits k ++ '.' :: ' ' :: b = (natDigits k ++ ['.', ' ']) ++ b by simp,
      rstrip_append_of_ne_nil hrb]
    simp
  rw [strip, h1]
  cases hnd : natDigits k with
  | nil => exact absurd hnd (natDigits_ne_nil k)
  | cons c t =>
    have hc : isSpace c = false :=
      isSpace_false_of_isDigit (natDigits_all_digit k c (by rw [hnd]; simp))
    unfold numLine
    rw [hnd, List.cons_append, lstrip_cons_of_nonspace hc]

theorem clean_numLine {k : Nat} {b : List Char} (hb : strip b ≠ []) :
    clean_fact_line (strip (numLine k b)) = strip b := by
  rw [strip_numLine_eq hb]
  have hall := natDigits_all_digit k
  have hmm : matchMarker (numLine k (rstrip b)) = some ((' ' :: rstrip b).dropWhile isSpace) := by
    unfold numLine
    rw [show natDigits k ++ '.' :: ' ' :: rstrip b = natDigits k ++ '.' :: (' ' :: rstrip b)
      from rfl]
    exact matchMarker_digits (natDigits_ne_nil k) hall (by decide)
  have hl : lstrip (numLine k (rstrip b)) = numLine k (rstrip b) := by
    cases hnd : natDigits k with
    | nil => exact absurd hnd (natDigits_ne_nil k)
    | cons c t =>
      have hc : isSpace c = false :=
        isSpace_false_of_isDigit (hall c (by rw [hnd]; simp))
      unfold numLine
      rw [hnd, List.cons_append, lstrip_cons_of_nonspace hc]
  unfold clean_fact_line stripMarker
  rw [hl, hmm]
  have : (' ' :: rstrip b).dropWhile isSpace = strip b := by
    rw [List.dropWhile_cons]
    simp only [show isSpace ' ' = true from rfl, if_true]
    rfl
  rw [this, strip_idem]

theorem strip_numLine_ne_nil {k : Nat} {b : List Char} (hb : strip b ≠ []) :
    strip (numLine k b) ≠ [] := by
  rw [strip_numLine_eq hb]
  unfold numLine
  cases hnd : natDigits k with
  | nil => exact absurd hnd (natDigits_ne_nil k)
  | cons c t => simp

/-! ### Unfolding equations for the extractor -/

theorem extract_spec (raw : List Char) :
    get_movie_facts_extract raw =
      if (if lineFactsOf (strip raw) = [] then sentenceFactsOf (strip raw)
          else lineFactsOf (strip raw)) = [] then none
      else some ((if lineFactsOf (strip raw) = [] then sentenceFactsOf (strip raw)
          else lineFactsOf (strip raw)).take 6) := rfl

theorem extract_eq_of_lineFacts {raw : List Char} {fs : List (List Char)}
    (h : lineFactsOf (strip raw) = fs) (hne : fs ≠ []) :
    get_movie_facts_extract raw = some (fs.take 6) := by
  rw [extract_spec, h, if_neg hne, if_neg hne]

theorem extract_eq_none {raw : List Char} (h1 : lineFactsOf (strip raw) = [])
    (h2 : sentenceFactsOf (strip raw) = []) : get_movie_facts_extract raw = none := by
  rw [extract_spec, h1, h2]
  simp

theorem extract_eq_of_sentenceFacts {raw : List Char} {fs : List (List Char)}
    (h1 : lineFactsOf (strip raw) = []) (h2 : sentenceFactsOf (strip raw) = fs)
    (hne : fs ≠ []) :
    get_movie_facts_extract raw = some (fs.take 6) := by
  rw [extract_spec, h1, h2]
  simp [hne]

/-! ### The extractor on numbered-line completions -/

theorem numberedLines_append (k : Nat) (bs cs : List (List Char)) :
    numberedLines k (bs ++ cs) = numberedLines k bs ++ numberedLines (k + bs.length) cs := by
  induction bs generalizing k with
  | nil => simp [numberedLines]
  | cons b bs ih =>
    have h1 : numberedLines k (b :: (bs ++ cs))
        = numLine (k + 1) b :: numberedLines (k + 1) (bs ++ cs) := rfl
    have h2 : numberedLines k (b :: bs) = numLine (k + 1) b :: numberedLines (k + 1) bs := rfl
    rw [List.cons_append, h1, ih (k + 1), h2, List.cons_append]
    have h3 : k + 1 + bs.length = k + (b :: bs).length := by
      simp only [List.length_cons]
      omega
    rw [h3]

theorem numberedLines_ne_nil {k : Nat} {bs : List (List Char)} (h : bs ≠ []) :
    numberedLines k bs ≠ [] := by
  cases bs with
  | nil => exact absurd rfl h
  | cons b bs => simp [numberedLines]

theorem lineFacts_numbered :
    ∀ (bs : List (List Char)) (k : Nat), bs ≠ [] →
      (∀ b ∈ bs, '\n' ∉ b ∧ '\r' ∉ b ∧ strip b ≠ []) →
      lineFactsOf (joinNL (numberedLines k bs)) = bs.map strip := by
  intro bs
  induction bs with
  | nil => intro k h; exact absurd rfl h
  | cons b bs ih =>
    intro k _ hb
    obtain ⟨hnl, hcr, hsb⟩ := hb b (List.mem_cons_self _ _)
    cases bs with
    | nil =>
      show lineFactsOf (joinNL [numLine (k + 1) b]) = [strip b]
      rw [show joinNL [numLine (k + 1) b] = numLine (k + 1) b from rfl]
      rw [lineFactsOf, lineSplit_single (numLine_no_nl hnl), lineFactsFromPieces_cons,
        clean_numLine hsb, if_neg hsb]
      rfl
    | cons b2 bs2 =>
      have hb2 : ∀ x ∈ b2 :: bs2, '\n' ∉ x ∧ '\r' ∉ x ∧ strip x ≠ [] :=
        fun x hx => hb x (List.mem_cons_of_mem _ hx)
      have hbne : b ≠ [] := by
        intro he
        exact hsb (by rw [he]; rfl)
      have hlast : (numLine (k + 1) b).getLast? ≠ some '\r' := by
        rw [numLine_getLast?_of_ne_nil hbne]
        intro hg
        exact hcr (List.mem_of_mem_getLast? hg)
      rw [show numberedLines k (b :: b2 :: bs2)
          = numLine (k + 1) b :: numberedLines (k + 1) (b2 :: bs2) from rfl]
      rw [joinNL_cons (numberedLines_ne_nil (by simp))]
      rw [lineFactsOf, lineSplit_append_nl _ (numLine_no_nl hnl) hlast]
      rw [show lineSplit (joinNL (numberedLines (k + 1) (b2 :: bs2)))
            = lineSplit (joinNL (numberedLines (k + 1) (b2 :: bs2))) from rfl]
      rw [lineFactsFromPieces_cons, clean_numLine hsb, if_neg hsb]
      have hrec : lineFactsFromPieces (lineSplit (joinNL (numberedLines (k + 1) (b2 :: bs2))))
          = (b2 :: bs2).map strip := ih (k + 1) (by simp) hb2
      rw [hrec]
      rfl

theorem joinNL_numbered_shape (k : Nat) (b : List Char) (bs : List (List Char)) :
    ∃ t, joinNL (numberedLines k (b :: bs)) = numLine (k + 1) b ++ t := by
  cases bs with
  | nil => exact ⟨[], by simp [numberedLines, joinNL]⟩
  | cons b2 bs2 =>
    refine ⟨'\n' :: joinNL (numberedLines (k + 1) (b2 :: bs2)), ?_⟩
    rw [show numberedLines k (b :: b2 :: bs2)
        = numLine (k + 1) b :: numberedLines (k + 1) (b2 :: bs2) from rfl]
    exact joinNL_cons (numberedLines_ne_nil (by simp))

theorem lstrip_numLine_append (k : Nat) (b u : List Char) :
    lstrip (numLine (k + 1) b ++ u) = numLine (k + 1) b ++ u := by
  cases hnd : natDigits (k + 1) with
  | nil => exact absurd hnd (natDigits_ne_nil _)
  | cons c t =>
    have hc : isSpace c = false :=
      isSpace_false_of_isDigit (natDigits_all_digit (k + 1) c (by rw [hnd]; simp))
    rw [show numLine (k + 1) b ++ u = c :: (t ++ '.' :: ' ' :: b ++ u) by
      simp [numLine, hnd]]
    exact lstrip_cons_of_nonspace hc

theorem strip_joinNL_numbered {k : Nat} {L : List (List Char)} {bN : List Char}
    (hsb : strip bN ≠ []) :
    strip (joinNL (numberedLines k (L ++ [bN])))
      = joinNL (numberedLines k (L ++ [rstrip bN])) := by
  have hrb : rstrip bN ≠ [] := lstrip_ne_nil_of_strip_ne_nil hsb
  cases L with
  | nil =>
    show strip (joinNL [numLine (k + 1) bN]) = joinNL [numLine (k + 1) (rstrip bN)]
    rw [show joinNL [numLine (k + 1) bN] = numLine (k + 1) bN from rfl,
      show joinNL [numLine (k + 1) (rstrip bN)] = numLine (k + 1) (rstrip bN) from rfl]
    exact strip_numLine_eq hsb
  | cons b0 L0 =>
    rw [numberedLines_append, numberedLines_append]
    have h1 : numberedLines k (b0 :: L0) ≠ [] := numberedLines_ne_nil (by simp)
    rw [joinNL_append h1 (by simp [numberedLines]), joinNL_append h1 (by simp [numberedLines])]
    rw [show joinNL (numberedLines (k + (b0 :: L0).length) [bN])
        = numLine (k + (b0 :: L0).length + 1) bN from rfl]
    rw [show joinNL (numberedLines (k + (b0 :: L0).length) [rstrip bN])
        = numLine (k + (b0 :: L0).length + 1) (rstrip bN) from rfl]
    set K := k + (b0 :: L0).length + 1 with hK
    set X := joinNL (numberedLines k (b0 :: L0)) with hX
    have hr : rstrip (X ++ '\n' :: numLine K bN) = X ++ '\n' :: numLine K (rstrip bN) := by
      rw [show X ++ '\n' :: numLine K bN
          = (X ++ '\n' :: natDigits K ++ ['.', ' ']) ++ bN by simp [numLine]]
      rw [rstrip_append_of_ne_nil hrb]
      simp [numLine]
    rw [strip, hr]
    obtain ⟨t, ht⟩ := joinNL_numbered_shape k b0 L0
    rw [← hX] at ht
    rw [ht, List.append_assoc]
    exact lstrip_numLine_append k b0 _

/-! ### Claim C1 -/

/-- C1: for every completion output consisting of N non-empty lines where line i
is prefixed with "<i>. " (the decimal numeral of i, a period, a space), the
extractor succeeds and returns exactly N facts — capped at maxFacts = 6 — each
equal to the corresponding line with its numeric prefix removed and trimmed, in
the original line order.  Bodies are arbitrary apart from containing no line
break of their own and being non-blank. -/
theorem c1_numbered_lines (bs : List (List Char)) (hne : bs ≠ [])
    (hb : ∀ b ∈ bs, '\n' ∉ b ∧ '\r' ∉ b ∧ strip b ≠ []) :
    get_movie_facts_extract (joinNL (numberedLines 0 bs)) = some ((bs.map strip).take 6)
    ∧ ((bs.map strip).take 6).length = min bs.length 6 := by
  constructor
  · rcases List.eq_nil_or_concat bs with rfl | ⟨L, bN, hbs⟩
    · exact absurd rfl hne
    · rw [List.concat_eq_append] at hbs
      subst hbs
      obtain ⟨hnlN, hcrN, hsbN⟩ := hb bN (by simp)
      have hb2 : ∀ x ∈ L ++ [rstrip bN], '\n' ∉ x ∧ '\r' ∉ x ∧ strip x ≠ [] := by
        intro x hx
        rcases List.mem_append.mp hx with hx | hx
        · exact hb x (List.mem_append.mpr (Or.inl hx))
        · rcases List.mem_singleton.mp hx with rfl
          refine ⟨fun hm => hnlN ((rstrip_sublist bN).subset hm),
                  fun hm => hcrN ((rstrip_sublist bN).subset hm), ?_⟩
          rw [strip_rstrip]
          exact hsbN
      have hLF : lineFactsOf (strip (joinNL (numberedLines 0 (L ++ [bN]))))
          = (L ++ [rstrip bN]).map strip := by
        rw [strip_joinNL_numbered hsbN]
        exact lineFacts_numbered (L ++ [rstrip bN]) 0 (by simp) hb2
      have hmap : (L ++ [rstrip bN]).map strip = (L ++ [bN]).map strip := by
        simp [strip_rstrip]
      exact extract_eq_of_lineFacts (hLF.trans hmap) (by simp)
  · rw [List.length_take, List.length_map, Nat.min_comm]

/-- Witness for C1 at the concrete three-line input
"1. Fact one.\n2. Fact two.\n3. Fact three". -/
theorem c1_numbered_lines_witness :
    ((["Fact one.".data, "Fact two.".data, "Fact three".data] : List (List Char)) ≠ []
      ∧ ∀ b ∈ (["Fact one.".data, "Fact two.".data, "Fact three".data] : List (List Char)),
          '\n' ∉ b ∧ '\r' ∉ b ∧ strip b ≠ [])
    ∧ (get_movie_facts_extract
        (joinNL (numberedLines 0 ["Fact one.".data, "Fact two.".data, "Fact three".data]))
        = some (((["Fact one.".data, "Fact two.".data, "Fact three".data]
            : List (List Char)).map strip).take 6)
      ∧ (((["Fact one.".data, "Fact two.".data, "Fact three".data]
            : List (List Char)).map strip).take 6).length
          = min (["Fact one.".data, "Fact two.".data, "Fact three".data]
            : List (List Char)).length 6) :=
  ⟨⟨by decide, by decide⟩, c1_numbered_lines _ (by decide) (by decide)⟩

/-! ### Claim C4 -/

/-- C4: whenever the line-cleaning stage produces more than maxFacts = 6 candidate
facts, the extractor returns exactly the first 6 of them, in the original order. -/
theorem c4_truncation_first_six {raw : List Char}
    (h : 6 < (lineFactsOf (strip raw)).length) :
    get_movie_facts_extract raw = some ((lineFactsOf (strip raw)).take 6)
    ∧ ((lineFactsOf (strip raw)).take 6).length = 6 := by
  have hne : lineFactsOf (strip raw) ≠ [] := by
    intro he
    rw [he] at h
    simp at h
  refine ⟨extract_eq_of_lineFacts rfl hne, ?_⟩
  rw [List.length_take]
  omega

/-- Witness for C4 at a seven-line input. -/
theorem c4_truncation_first_six_witness :
    6 < (lineFactsOf (strip "a\nb\nc\nd\ne\nf\ng".data)).length
    ∧ (get_movie_facts_extract "a\nb\nc\nd\ne\nf\ng".data
        = some ((lineFactsOf (strip "a\nb\nc\nd\ne\nf\ng".data)).take 6)
      ∧ ((lineFactsOf (strip "a\nb\nc\nd\ne\nf\ng".data)).take 6).length = 6) :=
  ⟨by decide, c4_truncation_first_six (by decide)⟩

/-! ### Claim C2 -/

/-- C2, amended: for pure prose — no line break, no leading enumeration marker,
non-empty after trimming — the LINE strategy itself already yields the whole
trimmed prose as one single fact, so the extractor returns at least one fact but
the sentence fallback is never consulted. -/
theorem c2_prose_whole_line_fact {raw : List Char} (hnl : '\n' ∉ raw)
    (hm : matchMarker (strip raw) = none) (hne : strip raw ≠ []) :
    get_movie_facts_extract raw = some [strip raw] := by
  have hnl2 : '\n' ∉ strip raw := fun h => hnl ((strip_sublist raw).subset h)
  have hl : lstrip (strip raw) = strip raw := lstrip_idem (rstrip raw)
  have hcl : clean_fact_line (strip raw) = strip raw := by
    rw [clean_of_no_marker (by rw [hl]; exact hm)]
    exact strip_idem raw
  have hLF : lineFactsOf (strip raw) = [strip raw] := by
    rw [lineFactsOf, lineSplit_single hnl2, lineFactsFromPieces_cons, strip_idem, hcl,
      if_neg hne]
    rfl
  have h6 := extract_eq_of_lineFacts hLF (by simp)
  simpa using h6

/-- Witness for the amended C2 on one-line prose. -/
theorem c2_prose_whole_line_fact_witness :
    ('\n' ∉ "The film premiered in October 1999.".data
      ∧ matchMarker (strip "The film premiered in October 1999.".data) = none
      ∧ strip "The film premiered in October 1999.".data ≠ [])
    ∧ get_movie_facts_extract "The film premiered in October 1999.".data
        = some [strip "The film premiered in October 1999.".data] :=
  ⟨⟨by decide, by decide, by decide⟩,
    c2_prose_whole_line_fact (by decide) (by decide) (by decide)⟩

/-- C2, counterexample to the claim as stated: on a two-sentence prose input
(no line breaks, no markers, terminal-punctuated clauses present, cleaning
non-empty) the extractor does NOT fall back to sentence segmentation — it
returns the entire prose as one fact, not the two segmented sentences. -/
theorem c2_counterexample :
    get_movie_facts_extract "First fact here. Second fact there.".data
      = some ["First fact here. Second fact there.".data]
    ∧ sentenceFactsOf (strip "First fact here. Second fact there.".data)
      = ["First fact here.".data, "Second fact there.".data]
    ∧ get_movie_facts_extract "First fact here. Second fact there.".data
      ≠ some (sentenceFactsOf (strip "First fact here. Second fact there.".data)) :=
  ⟨by decide, by decide, by decide⟩

/-! ### Claim C10 -/

theorem rstrip_append_spaces {x ws : List Char} (h : ∀ c ∈ ws, isSpace c = true) :
    rstrip (x ++ ws) = rstrip x := by
  rw [rstrip_eq_reverse_lstrip, rstrip_eq_reverse_lstrip, List.reverse_append, lstrip,
    dropWhile_append_of_all (fun c hc => h c (List.mem_reverse.mp hc))]
  rfl

theorem markerShape_head_nonspace {m : MarkerShape} (hm : m.ok = true) :
    ∃ c t, m.chars = c :: t ∧ isSpace c = false := by
  cases m with
  | num ds p =>
    simp only [MarkerShape.ok, Bool.and_eq_true, List.all_eq_true] at hm
    obtain ⟨⟨hne, hall⟩, hp⟩ := hm
    cases ds with
    | nil => simp at hne
    | cons d ds' =>
      exact ⟨d, ds' ++ [p], rfl, isSpace_false_of_isDigit (hall d (by simp))⟩
  | bull b =>
    simp only [MarkerShape.ok] at hm
    exact ⟨b, [], rfl, isSpace_false_of_isBullet hm⟩

theorem markerShape_getLast_nonspace {m : MarkerShape} (hm : m.ok = true) :
    ∃ c, m.chars.getLast? = some c ∧ isSpace c = false := by
  cases m with
  | num ds p =>
    simp only [MarkerShape.ok, Bool.and_eq_true] at hm
    exact ⟨p, List.getLast?_concat ds, isSpace_false_of_isNumPunct hm.2⟩
  | bull b =>
    simp only [MarkerShape.ok] at hm
    exact ⟨b, rfl, isSpace_false_of_isBullet hm⟩

theorem strip_marker_head {x rest : List Char} {c : Char} {t : List Char}
    (hx : x = c :: t) (hc : isSpace c = false)
    (hl : ∃ d, x.getLast? = some d ∧ isSpace d = false) :
    strip (x ++ rest) = x ++ rstrip rest := by
  obtain ⟨d, hd, hds⟩ := hl
  have hrx : rstrip x = x := rstrip_eq_self_of_getLast hd hds
  have hr : rstrip (x ++ rest) = x ++ rstrip rest := by
    by_cases hre : rstrip rest = []
    · obtain ⟨ws, hws, hsp⟩ := rstrip_spec rest
      rw [hre] at hws
      simp only [List.nil_append] at hws
      subst hws
      rw [rstrip_append_spaces hsp, hrx, hre, List.append_nil]
    · exact rstrip_append_of_ne_nil hre
  rw [strip, hr, hx, List.cons_append]
  rw [lstrip_cons_of_nonspace hc]

/-- C10: `_clean_fact_line` strips at most one leading marker.  For every line of
the shape `ws0 ++ marker1 ++ ws1 ++ marker2 ++ rest` (two stacked markers), the
cleaned result is exactly `marker2 ++ rest` trimmed on the right — it still
begins with the second marker; only the first anchored marker and the
surrounding whitespace are removed. -/
theorem c10_single_marker_strip (m1 m2 : MarkerShape) (ws0 ws1 rest : List Char)
    (h0 : ∀ c ∈ ws0, isSpace c = true) (h1 : ∀ c ∈ ws1, isSpace c = true)
    (hm1 : m1.ok = true) (hm2 : m2.ok = true) :
    clean_fact_line (ws0 ++ m1.chars ++ ws1 ++ m2.chars ++ rest)
      = m2.chars ++ rstrip rest := by
  obtain ⟨c2, t2, hc2, hc2s⟩ := markerShape_head_nonspace hm2
  have hdrop : (ws1 ++ m2.chars ++ rest).dropWhile isSpace = m2.chars ++ rest := by
    rw [List.append_assoc, dropWhile_append_of_all h1, hc2, List.cons_append,
      List.dropWhile_cons_of_neg (by simp [hc2s])]
  have hlstrip : lstrip (ws0 ++ m1.chars ++ ws1 ++ m2.chars ++ rest)
      = m1.chars ++ (ws1 ++ m2.chars ++ rest) := by
    obtain ⟨c1, t1, hc1, hc1s⟩ := markerShape_head_nonspace hm1
    rw [List.append_assoc, List.append_assoc, List.append_assoc, lstrip,
      dropWhile_append_of_all h0, hc1, List.cons_append,
      List.dropWhile_cons_of_neg (by simp [hc1s])]
    simp [List.append_assoc]
  have hmm : matchMarker (m1.chars ++ (ws1 ++ m2.chars ++ rest))
      = some (m2.chars ++ rest) := by
    cases m1 with
    | num ds p =>
      simp only [MarkerShape.ok, Bool.and_eq_true, List.all_eq_true] at hm1
      obtain ⟨⟨hne, hall⟩, hp⟩ := hm1
      have : (MarkerShape.num ds p).chars ++ (ws1 ++ m2.chars ++ rest)
          = ds ++ p :: (ws1 ++ m2.chars ++ rest) := by
        simp [MarkerShape.chars]
      rw [this, matchMarker_digits (by simpa using hne) hall hp, hdrop]
    | bull b =>
      simp only [MarkerShape.ok] at hm1
      have : (MarkerShape.bull b).chars ++ (ws1 ++ m2.chars ++ rest)
          = b :: (ws1 ++ m2.chars ++ rest) := by
        simp [MarkerShape.chars]
      rw [this, matchMarker_bullet hm1, hdrop]
  unfold clean_fact_line stripMarker
  rw [hlstrip, hmm]
  exact strip_marker_head hc2 hc2s (markerShape_getLast_nonspace hm2)

/-- Witness for C10 at the line "1. - Fact" of the claim. -/
theorem c10_single_marker_strip_witness :
    ((∀ c ∈ ([] : List Char), isSpace c = true) ∧ (∀ c ∈ [' '], isSpace c = true)
      ∧ (MarkerShape.num ['1'] '.').ok = true ∧ (MarkerShape.bull '-').ok = true)
    ∧ clean_fact_line ([] ++ (MarkerShape.num ['1'] '.').chars ++ [' ']
        ++ (MarkerShape.bull '-').chars ++ " Fact".data)
      = (MarkerShape.bull '-').chars ++ rstrip " Fact".data :=
  ⟨⟨by decide, by decide, by decide, by decide⟩,
    c10_single_marker_strip (MarkerShape.num ['1'] '.') (MarkerShape.bull '-')
      [] [' '] " Fact".data (by decide) (by decide) (by decide) (by decide)⟩

/-! ### Claim C5 -/

/-- C5: when the request reaches fact generation and both the line strategy and
the sentence fallback yield zero facts, the handler does not return a success
response: it answers HTTP 500 with the "No facts could be generated" error, so
a zero-facts outcome is always distinguishable from a successful result. -/
theorem c5_zero_facts_is_500 (movie_id raw : List Char) (m : TmdbMovie)
    (hid : strip movie_id ≠ [])
    (hlines : lineFactsOf (strip raw) = [])
    (hsents : sentenceFactsOf (strip raw) = []) :
    get_movie_facts_handler movie_id true (.resp 200 m) true (.success raw)
      = .serverError "No facts could be generated".data
    ∧ (get_movie_facts_handler movie_id true (.resp 200 m) true (.success raw)).status
      = 500 := by
  have hx : get_movie_facts_extract raw = none := extract_eq_none hlines hsents
  have h1 : get_movie_facts_handler movie_id true (.resp 200 m) true (.success raw)
      = .serverError "No facts could be generated".data := by
    unfold get_movie_facts_handler
    rw [if_neg hid]
    simp [hx]
  exact ⟨h1, by rw [h1]; rfl⟩

/-- Witness for C5: movie_id "550", a completion of bare numeric markers
("1.\n2.") that defeats both strategies. -/
theorem c5_zero_facts_is_500_witness :
    (strip "550".data ≠ []
      ∧ lineFactsOf (strip "1.\n2.".data) = []
      ∧ sentenceFactsOf (strip "1.\n2.".data) = [])
    ∧ (get_movie_facts_handler "550".data true
        (.resp 200 ⟨some 550, some "Fight Club".data, none, some "1999-10-15".data, none⟩)
        true (.success "1.\n2.".data)
        = .serverError "No facts could be generated".data
      ∧ (get_movie_facts_handler "550".data true
          (.resp 200 ⟨some 550, some "Fight Club".data, none, some "1999-10-15".data, none⟩)
          true (.success "1.\n2.".data)).status = 500) :=
  ⟨⟨by decide, by decide, by decide⟩,
    c5_zero_facts_is_500 _ _ _ (by decide) (by decide) (by decide)⟩

/-! ### Claim C6 -/

/-- C6: when the metadata fetch succeeds but the completion provider is not
configured, the handler returns HTTP 200 with the movie's title, year and
poster and exactly one synthetic placeholder fact naming the title and year;
the response is the same for every completion outcome, so the completion
provider is never consulted. -/
theorem c6_placeholder_when_unconfigured (movie_id : List Char) (m : TmdbMovie)
    (completion : CompletionOutcome) (hid : strip movie_id ≠ []) :
    get_movie_facts_handler movie_id true (.resp 200 m) false completion
      = .ok ⟨movieTitle m, movieYear m, detailPoster m,
          [placeholderFact (movieTitle m) (movieYear m)]⟩
    ∧ (get_movie_facts_handler movie_id true (.resp 200 m) false completion).status
      = 200 := by
  have h1 : get_movie_facts_handler movie_id true (.resp 200 m) false completion
      = .ok ⟨movieTitle m, movieYear m, detailPoster m,
          [placeholderFact (movieTitle m) (movieYear m)]⟩ := by
    unfold get_movie_facts_handler
    rw [if_neg hid]
    simp
  exact ⟨h1, by rw [h1]; rfl⟩

/-- Witness for C6 with the completion outcome a failure (irrelevant, since the
provider is never called). -/
theorem c6_placeholder_when_unconfigured_witness :
    strip "550".data ≠ []
    ∧ (get_movie_facts_handler "550".data true
        (.resp 200 ⟨some 550, some "Fight Club".data, none, some "1999-10-15".data,
          some "/abc.jpg".data⟩) false .failure
        = .ok ⟨movieTitle ⟨some 550, some "Fight Club".data, none, some "1999-10-15".data,
            some "/abc.jpg".data⟩,
          movieYear ⟨some 550, some "Fight Club".data, none, some "1999-10-15".data,
            some "/abc.jpg".data⟩,
          detailPoster ⟨some 550, some "Fight Club".data, none, some "1999-10-15".data,
            some "/abc.jpg".data⟩,
          [placeholderFact
            (movieTitle ⟨some 550, some "Fight Club".data, none, some "1999-10-15".data,
              some "/abc.jpg".data⟩)
            (movieYear ⟨some 550, some "Fight Club".data, none, some "1999-10-15".data,
              some "/abc.jpg".data⟩)]⟩
      ∧ (get_movie_facts_handler "550".data true
          (.resp 200 ⟨some 550, some "Fight Club".data, none, some "1999-10-15".data,
            some "/abc.jpg".data⟩) false .failure).status = 200) :=
  ⟨by decide, c6_placeholder_when_unconfigured _ _ _ (by decide)⟩

/-! ### Claim C7 -/

/-- C7: the search route always answers HTTP 200, and on any upstream failure
(missing metadata key, non-200 upstream status, timeout or exception during
fetch or parse) the body is the empty array — errors are swallowed, never
surfaced. -/
theorem c7_search_swallows_errors (query : List Char) (tmdbKeySet : Bool)
    (fetch : Upstream (List TmdbMovie)) :
    (search_movies query tmdbKeySet fetch).1 = 200
    ∧ ((tmdbKeySet = false ∨ fetch = .exn
        ∨ ∃ st body, fetch = .resp st body ∧ st ≠ 200)
      → search_movies query tmdbKeySet fetch = (200, [])) := by
  constructor
  · unfold search_movies
    by_cases hq : strip query = []
    · rw [if_pos hq]
    · rw [if_neg hq]
      cases tmdbKeySet with
      | false => rfl
      | true =>
        cases fetch with
        | exn => rfl
        | resp st body =>
          show (if st ≠ 200 then ((200 : Nat), ([] : List SearchItem))
            else (200, body.map mkSearchItem)).1 = 200
          split <;> rfl
  · intro h
    unfold search_movies
    by_cases hq : strip query = []
    · rw [if_pos hq]
    · rw [if_neg hq]
      rcases h with rfl | rfl | ⟨st, body, rfl, hst⟩
      · rfl
      · cases tmdbKeySet <;> rfl
      · cases tmdbKeySet with
        | false => rfl
        | true => simp [hst]

/-- Witness for C7 at a concrete non-200 upstream response. -/
theorem c7_search_swallows_errors_witness :
    search_movies "batman".data true (.resp 404 []) = (200, []) :=
  (c7_search_swallows_errors "batman".data true (.resp 404 [])).2
    (Or.inr (Or.inr ⟨404, [], rfl, by decide⟩))

/-! ### Claim C8 -/

/-- C8, counterexample to the claim as stated: for the same movie with poster
path "/abc.jpg", the search route and the detail route build different poster
URLs (w200 against w500), so there is no single consistent size variant across
routes. -/
theorem c8_counterexample :
    (mkSearchItem ⟨some 550, some "Fight Club".data, none, some "1999-10-15".data,
        some "/abc.jpg".data⟩).poster
      ≠ detailPoster ⟨some 550, some "Fight Club".data, none, some "1999-10-15".data,
        some "/abc.jpg".data⟩ := by
  decide

/-- C8, amended: every poster URL is the fixed image-CDN base
"https://image.tmdb.org/t/p/" plus a size variant plus the provider-supplied
path, with w200 on the search route and w500 on the detail route (not one
single variant); when the provider supplies no poster path (or an empty one),
both routes yield null. -/
theorem c8_poster_urls (m : TmdbMovie) :
    (∀ p, m.poster_path = some p → p ≠ [] →
      (mkSearchItem m).poster
        = some ("https://image.tmdb.org/t/p/".data ++ "w200".data ++ p)
      ∧ detailPoster m
        = some ("https://image.tmdb.org/t/p/".data ++ "w500".data ++ p))
    ∧ (truthy m.poster_path = false →
        (mkSearchItem m).poster = none ∧ detailPoster m = none) := by
  have hsplit200 : "https://image.tmdb.org/t/p/w200".data
      = "https://image.tmdb.org/t/p/".data ++ "w200".data := by decide
  have hsplit500 : "https://image.tmdb.org/t/p/w500".data
      = "https://image.tmdb.org/t/p/".data ++ "w500".data := by decide
  constructor
  · intro p hp hpne
    have ht : truthy m.poster_path = true := by
      rw [hp]
      simpa [truthy, List.isEmpty_iff] using hpne
    constructor
    · show searchPoster m = _
      rw [searchPoster, if_pos ht, hp, hsplit200]
      rfl
    · rw [detailPoster, if_pos ht, hp, hsplit500]
      rfl
  · intro ht
    constructor
    · show searchPoster m = none
      rw [searchPoster, if_neg (by simp [ht])]
    · rw [detailPoster, if_neg (by simp [ht])]

/-- Witness for the amended C8 at poster path "/abc.jpg". -/
theorem c8_poster_urls_witness :
    (mkSearchItem ⟨some 550, some "Fight Club".data, none, some "1999-10-15".data,
        some "/abc.jpg".data⟩).poster
      = some ("https://image.tmdb.org/t/p/".data ++ "w200".data ++ "/abc.jpg".data)
    ∧ detailPoster ⟨some 550, some "Fight Club".data, none, some "1999-10-15".data,
        some "/abc.jpg".data⟩
      = some ("https://image.tmdb.org/t/p/".data ++ "w500".data ++ "/abc.jpg".data) :=
  (c8_poster_urls _).1 "/abc.jpg".data rfl (by decide)

/-! ### Claim C9 -/

/-- C9, counterexample to the claim as stated: a metadata response whose
release_date is "TBA" produces the year "TBA" in both routes — neither a
4-digit string nor empty. -/
theorem c9_counterexample :
    specYearShape (movieYear ⟨some 1, some "Upcoming".data, none, some "TBA".data, none⟩)
      = false
    ∧ movieYear ⟨some 1, some "Upcoming".data, none, some "TBA".data, none⟩ = "TBA".data := by
  exact ⟨by decide, by decide⟩

/-- C9, amended: in both routes the year field is the first at-most-four
characters of the provider's release_date — its length is at most 4 and it is
a prefix of release_date, empty when release_date is absent or empty — but
nothing forces it to be four digits. -/
theorem c9_year_prefix (m : TmdbMovie) :
    (movieYear m).length ≤ 4
    ∧ (movieYear m = [] ∨ ∃ rd t, m.release_date = some rd ∧ movieYear m ++ t = rd)
    ∧ (mkSearchItem m).year = movieYear m := by
  refine ⟨?_, ?_, rfl⟩
  · unfold movieYear
    split
    · exact List.length_take_le _ _
    · simp
  · unfold movieYear
    by_cases ht : truthy m.release_date = true
    · rw [if_pos ht]
      cases hrd : m.release_date with
      | none => rw [hrd] at ht; simp [truthy] at ht
      | some rd =>
        right
        exact ⟨rd, rd.drop 4, rfl, by simp [hrd, List.take_append_drop]⟩
    · rw [if_neg ht]
      left
      rfl

/-! ### Word decomposition lemmas (for claim C3) -/

theorem words_nil : words [] = [] := by rw [words]

theorem words_cons_space {c : Char} {l : List Char} (h : isSpace c = true) :
    words (c :: l) = words l := by
  rw [words, if_pos h]

theorem words_cons_nonspace {c : Char} {l : List Char} (h : isSpace c = false) :
    words (c :: l) = (c :: l.takeWhile notSpace) :: words (l.dropWhile notSpace) := by
  rw [words, if_neg (by simp [h])]

theorem takeWhile_append_stop {p : Char → Bool} {a : List Char} {c : Char} {b : List Char}
    (hc : p c = false) : (a ++ c :: b).takeWhile p = a.takeWhile p := by
  induction a with
  | nil =>
    rw [List.nil_append, List.takeWhile_nil]
    exact List.takeWhile_cons_of_neg (by simp [hc])
  | cons d a' ih =>
    rw [List.cons_append, List.takeWhile_cons, List.takeWhile_cons]
    by_cases hd : p d = true
    · rw [if_pos hd, if_pos hd, ih]
    · rw [if_neg hd, if_neg hd]

theorem dropWhile_append_stop {p : Char → Bool} {a : List Char} {c : Char} {b : List Char}
    (hc : p c = false) : (a ++ c :: b).dropWhile p = a.dropWhile p ++ c :: b := by
  induction a with
  | nil =>
    rw [List.nil_append, List.dropWhile_nil, List.nil_append]
    exact List.dropWhile_cons_of_neg (by simp [hc])
  | cons d a' ih =>
    rw [List.cons_append, List.dropWhile_cons, List.dropWhile_cons]
    by_cases hd : p d = true
    · rw [if_pos hd, if_pos hd, ih]
    · rw [if_neg hd, if_neg hd, List.cons_append]

theorem words_append_space {c : Char} (hc : isSpace c = true) :
    ∀ (a b : List Char), words (a ++ c :: b) = words a ++ words b := by
  intro a
  induction a using words.induct with
  | case1 =>
    intro b
    rw [List.nil_append, words_cons_space hc, words_nil, List.nil_append]
  | case2 d rest hd ih =>
    intro b
    rw [List.cons_append, words_cons_space hd, words_cons_space hd, ih]
  | case3 d rest hd ih =>
    intro b
    have hd2 : isSpace d = false := by simpa using hd
    rw [List.cons_append, words_cons_nonspace hd2, words_cons_nonspace hd2]
    have hnc : notSpace c = false := by simp [notSpace, hc]
    rw [takeWhile_append_stop hnc, dropWhile_append_stop hnc, ih]
    rw [List.cons_append]

theorem words_nil_of_all_space {l : List Char} (h : ∀ c ∈ l, isSpace c = true) :
    words l = [] := by
  induction l with
  | nil => exact words_nil
  | cons c t ih =>
    rw [words_cons_space (h c (List.mem_cons_self _ _))]
    exact ih fun d hd => h d (List.mem_cons_of_mem _ hd)

theorem words_append_spaces {a ws : List Char} (h : ∀ c ∈ ws, isSpace c = true) :
    words (a ++ ws) = words a := by
  cases ws with
  | nil => rw [List.append_nil]
  | cons c ws2 =>
    rw [words_append_space (h c (List.mem_cons_self _ _)) a ws2,
      words_nil_of_all_space (fun d hd => h d (List.mem_cons_of_mem _ hd)), List.append_nil]

theorem words_spaces_append {ws b : List Char} (h : ∀ c ∈ ws, isSpace c = true) :
    words (ws ++ b) = words b := by
  induction ws with
  | nil => rw [List.nil_append]
  | cons c ws2 ih =>
    rw [List.cons_append, words_cons_space (h c (List.mem_cons_self _ _))]
    exact ih fun d hd => h d (List.mem_cons_of_mem _ hd)

theorem words_append_spaces_append {ws : List Char} (a b : List Char) (hne : ws ≠ [])
    (h : ∀ c ∈ ws, isSpace c = true) :
    words (a ++ ws ++ b) = words a ++ words b := by
  cases ws with
  | nil => exact absurd rfl hne
  | cons c ws2 =>
    rw [show a ++ (c :: ws2) ++ b = a ++ c :: (ws2 ++ b) by simp]
    rw [words_append_space (h c (List.mem_cons_self _ _)) a (ws2 ++ b),
      words_spaces_append fun d hd => h d (List.mem_cons_of_mem _ hd)]

theorem words_lstrip (l : List Char) : words (lstrip l) = words l := by
  induction l with
  | nil => rfl
  | cons c t ih =>
    by_cases hc : isSpace c = true
    · rw [lstrip_cons_of_space hc, ih, words_cons_space hc]
    · have hc2 : isSpace c = false := by simpa using hc
      rw [lstrip_cons_of_nonspace hc2]

theorem words_rstrip (l : List Char) : words (rstrip l) = words l := by
  obtain ⟨ws, hws, hsp⟩ := rstrip_spec l
  conv_rhs => rw [hws]
  rw [words_append_spaces hsp]

theorem words_strip (l : List Char) : words (strip l) = words l := by
  rw [strip, words_lstrip, words_rstrip]

theorem words_word_spaces {w z : List Char} (hw : w ≠ [])
    (hnw : ∀ c ∈ w, isSpace c = false) (hz : ∀ c ∈ z, isSpace c = true) :
    words (w ++ z) = [w] := by
  cases w with
  | nil => exact absurd rfl hw
  | cons c w2 =>
    rw [List.cons_append, words_cons_nonspace (hnw c (List.mem_cons_self _ _))]
    have hw2 : ∀ d ∈ w2, notSpace d = true := by
      intro d hd
      simp [notSpace, hnw d (List.mem_cons_of_mem _ hd)]
    have h1 : (w2 ++ z).takeWhile notSpace = w2 := by
      rw [takeWhile_append_of_all hw2]
      cases z with
      | nil => simp
      | cons e z2 =>
        rw [List.takeWhile_cons_of_neg (by simp [notSpace, hz e (List.mem_cons_self _ _)]),
          List.append_nil]
    have h2 : (w2 ++ z).dropWhile notSpace = z := by
      rw [dropWhile_append_of_all hw2]
      cases z with
      | nil => rfl
      | cons e z2 =>
        exact List.dropWhile_cons_of_neg (by simp [notSpace, hz e (List.mem_cons_self _ _)])
    rw [h1, h2, words_nil_of_all_space hz]

/-! ### Reconstruction of the text from its split pieces -/

theorem lineJoin_words {ps : List (List Char)} {x : List Char} (h : LineJoin ps x) :
    words x = (ps.map words).flatten := by
  induction h with
  | single l => simp
  | lf l h2 ih =>
    rw [words_append_space (by decide) l _, ih]
    simp
  | crlf l h2 ih =>
    rename_i ps2 x2
    rw [show l ++ '\r' :: '\n' :: x2 = l ++ '\r' :: ('\n' :: x2) from rfl,
      words_append_space (by decide) l ('\n' :: x2), words_cons_space (by decide), ih]
    simp

theorem sentJoin_words {ps : List (List Char)} {x : List Char} (h : SentJoin ps x) :
    words x = (ps.map words).flatten := by
  induction h with
  | single l => simp
  | cons l ws hne hsp h2 ih =>
    rw [words_append_spaces_append _ _ hne hsp, ih]
    simp

theorem sentGo_true_eq (x : List Char) : sentGo x true = sentGo (x.dropWhile isSpace) false := by
  induction x with
  | nil => rfl
  | cons c rest ih =>
    by_cases hc : isSpace c = true
    · rw [List.dropWhile_cons, if_pos hc, ← ih]
      show sentGo (c :: rest) true = sentGo rest true
      simp [sentGo, hc]
    · rw [List.dropWhile_cons, if_neg hc]
      show sentGo (c :: rest) true = sentGo (c :: rest) false
      simp [sentGo, hc]

theorem sentJoin_consHead {c : Char} {ps : List (List Char)} {x : List Char}
    (h : SentJoin ps x) : SentJoin (consHead c ps) (c :: x) := by
  cases h with
  | single a => exact SentJoin.single _
  | cons a ws hne hsp h2 => exact SentJoin.cons _ ws hne hsp h2

theorem sentSplit_sentJoin : ∀ x : List Char, SentJoin (sentSplit x) x := by
  have key : ∀ (n : Nat) (x : List Char), x.length ≤ n → SentJoin (sentSplit x) x := by
    intro n
    induction n with
    | zero =>
      intro x hx
      cases x with
      | nil => exact SentJoin.single []
      | cons c rest => simp at hx
    | succ n IH =>
      intro x hx
      cases x with
      | nil => exact SentJoin.single []
      | cons c rest =>
        by_cases ht : (isTerm c && startsSpace rest) = true
        · have hsplit : sentSplit (c :: rest) = [c] :: sentGo rest true := by
            show sentGo (c :: rest) false = _
            simp [sentGo, ht]
          rw [hsplit, sentGo_true_eq]
          have hws : rest.takeWhile isSpace ≠ [] := by
            obtain ⟨-, hss⟩ : isTerm c = true ∧ startsSpace rest = true := by simpa using ht
            cases rest with
            | nil => simp [startsSpace] at hss
            | cons r rest2 =>
              rw [List.takeWhile_cons_of_pos (by simpa [startsSpace] using hss)]
              simp
          have hIH : SentJoin (sentGo (rest.dropWhile isSpace) false)
              (rest.dropWhile isSpace) := by
            apply IH
            have hle := (List.dropWhile_sublist (l := rest) isSpace).length_le
            simp only [List.length_cons] at hx
            omega
          have hj := SentJoin.cons [c] (rest.takeWhile isSpace) hws
            (fun d hd => List.mem_takeWhile_imp hd) hIH
          have hrest : [c] ++ rest.takeWhile isSpace ++ rest.dropWhile isSpace = c :: rest := by
            rw [List.append_assoc, List.takeWhile_append_dropWhile]
            rfl
          rwa [hrest] at hj
        · have hsplit : sentSplit (c :: rest) = consHead c (sentSplit rest) := by
            show sentGo (c :: rest) false = consHead c (sentGo rest false)
            simp [sentGo, ht]
          rw [hsplit]
          apply sentJoin_consHead
          apply IH
          simp only [List.length_cons] at hx
          omega
  intro x
  exact key x.length x le_rfl

/-! ### Invariants of extracted facts, and re-extraction (claim C3) -/

theorem mem_lineFactsFromPieces {ps : List (List Char)} {f : List Char}
    (h : f ∈ lineFactsFromPieces ps) :
    f ≠ [] ∧ ∃ p ∈ ps, f = clean_fact_line (strip p) := by
  unfold lineFactsFromPieces at h
  rw [List.mem_filter] at h
  obtain ⟨hmem, hne⟩ := h
  rw [List.mem_map] at hmem
  obtain ⟨q, hq, rfl⟩ := hmem
  rw [List.mem_filter] at hq
  obtain ⟨hq2, hq3⟩ := hq
  rw [List.mem_map] at hq2
  obtain ⟨p, hp, rfl⟩ := hq2
  exact ⟨by simpa using hne, p, hp, rfl⟩

theorem extract_some_inv {raw : List Char} {fs : List (List Char)}
    (h : get_movie_facts_extract raw = some fs) :
    (lineFactsOf (strip raw) ≠ [] ∧ fs = (lineFactsOf (strip raw)).take 6)
    ∨ (lineFactsOf (strip raw) = [] ∧ sentenceFactsOf (strip raw) ≠ []
        ∧ fs = (sentenceFactsOf (strip raw)).take 6) := by
  rw [extract_spec] at h
  by_cases h1 : lineFactsOf (strip raw) = []
  · rw [h1] at h
    simp only [eq_self_iff_true, if_true] at h
    by_cases h2 : sentenceFactsOf (strip raw) = []
    · rw [h2] at h
      simp at h
    · rw [if_neg h2] at h
      right
      exact ⟨h1, h2, (Option.some_inj.mp h).symm⟩
  · rw [if_neg h1, if_neg h1] at h
    left
    exact ⟨h1, (Option.some_inj.mp h).symm⟩

theorem take_six_ne_nil {l : List (List Char)} (h : l ≠ []) : l.take 6 ≠ [] := by
  cases l with
  | nil => exact absurd rfl h
  | cons a t => simp

theorem rstrip_eq_self_of_strip_eq {f : List Char} (h : strip f = f) : rstrip f = f := by
  have h1 : (rstrip f).length ≤ f.length := (rstrip_sublist f).length_le
  have h2 : f.length ≤ (rstrip f).length := by
    conv_lhs => rw [← h]
    exact (List.dropWhile_sublist isSpace).length_le
  exact (rstrip_sublist f).eq_of_length (le_antisymm h1 h2)

theorem lstrip_eq_self_of_strip_eq {f : List Char} (h : strip f = f) : lstrip f = f := by
  conv_lhs => rw [← h]
  rw [show lstrip (strip f) = strip f from lstrip_idem (rstrip f)]
  exact h

theorem stripped_head_nonspace {f : List Char} {c : Char} {t : List Char}
    (h : strip f = f) (hf : f = c :: t) : isSpace c = false :=
  strip_head_false (h.trans hf)

theorem stripped_getLast_nonspace {f : List Char} (h : strip f = f) (hne : f ≠ []) :
    ∃ d, f.getLast? = some d ∧ isSpace d = false := by
  obtain ⟨d, hd⟩ : ∃ d, f.getLast? = some d := by
    cases hg : f.getLast? with
    | none => exact absurd (List.getLast?_eq_none_iff.mp hg) hne
    | some d => exact ⟨d, rfl⟩
  refine ⟨d, hd, ?_⟩
  have hr := rstrip_eq_self_of_strip_eq h
  exact rstrip_getLast_false (by rw [hr]; exact hd)

theorem joinNL_cons_shape (f : List Char) (fs : List (List Char)) :
    ∃ t, joinNL (f :: fs) = f ++ t := by
  cases fs with
  | nil => exact ⟨[], by simp [joinNL]⟩
  | cons g gs => exact ⟨'\n' :: joinNL (g :: gs), rfl⟩

theorem joinNL_concat_shape (fs : List (List Char)) (g : List Char) :
    ∃ t, joinNL (fs ++ [g]) = t ++ g := by
  induction fs with
  | nil => exact ⟨[], by simp [joinNL]⟩
  | cons f fs ih =>
    obtain ⟨t, ht⟩ := ih
    refine ⟨f ++ '\n' :: t, ?_⟩
    rw [List.cons_append, joinNL_cons (by simp), ht]
    simp

theorem lineSplit_joinNL : ∀ (fs : List (List Char)), fs ≠ [] →
    (∀ f ∈ fs, f ≠ [] ∧ strip f = f ∧ '\n' ∉ f) →
    lineSplit (joinNL fs) = fs := by
  intro fs
  induction fs with
  | nil =>
    intro h
    exact absurd rfl h
  | cons f fs ih =>
    intro _ hprops
    obtain ⟨hfne, hfs, hfnl⟩ := hprops f (List.mem_cons_self _ _)
    cases fs with
    | nil => exact lineSplit_single hfnl
    | cons g gs =>
      rw [joinNL_cons (by simp)]
      obtain ⟨d, hd, hds⟩ := stripped_getLast_nonspace hfs hfne
      have hcr : f.getLast? ≠ some '\r' := by
        rw [hd]
        intro hcon
        injection hcon with hcon2
        rw [hcon2] at hds
        exact absurd hds (by decide)
      rw [lineSplit_append_nl _ hfnl hcr,
        ih (by simp) (fun x hx => hprops x (List.mem_cons_of_mem _ hx))]

theorem lineFactsFromPieces_fixed : ∀ (fs : List (List Char)),
    (∀ f ∈ fs, f ≠ [] ∧ strip f = f ∧ matchMarker f = none) →
    lineFactsFromPieces fs = fs := by
  intro fs
  induction fs with
  | nil =>
    intro _
    rfl
  | cons f fs ih =>
    intro hprops
    obtain ⟨hfne, hfs, hfm⟩ := hprops f (List.mem_cons_self _ _)
    have hlf : lstrip f = f := lstrip_eq_self_of_strip_eq hfs
    have hclean : clean_fact_line f = f := by
      rw [clean_of_no_marker (by rw [hlf]; exact hfm), hfs]
    rw [lineFactsFromPieces_cons, hfs, hclean, if_neg hfne,
      ih (fun x hx => hprops x (List.mem_cons_of_mem _ hx))]
    rfl

theorem extract_joinNL_clean {fs : List (List Char)} (hne : fs ≠ [])
    (hlen : fs.length ≤ 6)
    (hprops : ∀ f ∈ fs, f ≠ [] ∧ strip f = f ∧ '\n' ∉ f ∧ matchMarker f = none) :
    get_movie_facts_extract (joinNL fs) = some fs := by
  have hstrip : strip (joinNL fs) = joinNL fs := by
    cases hj : joinNL fs with
    | nil => exact strip_nil
    | cons c t =>
      have hhd : isSpace c = false := by
        cases fs with
        | nil => exact absurd rfl hne
        | cons f fs2 =>
          obtain ⟨hfne, hfs, _, _⟩ := hprops f (List.mem_cons_self _ _)
          obtain ⟨u, hu⟩ := joinNL_cons_shape f fs2
          cases f with
          | nil => exact absurd rfl hfne
          | cons d t2 =>
            rw [hu, List.cons_append] at hj
            injection hj with h1 h2
            subst h1
            exact stripped_head_nonspace hfs rfl
      have hlast : ∃ d, (joinNL fs).getLast? = some d ∧ isSpace d = false := by
        rcases List.eq_nil_or_concat fs with rfl | ⟨fs0, g, hfg⟩
        · exact absurd rfl hne
        · rw [List.concat_eq_append] at hfg
          subst hfg
          obtain ⟨hgne, hgs, _, _⟩ := hprops g (by simp)
          obtain ⟨u, hu⟩ := joinNL_concat_shape fs0 g
          obtain ⟨d, hd, hds⟩ := stripped_getLast_nonspace hgs hgne
          refine ⟨d, ?_, hds⟩
          rw [hu, List.getLast?_append, hd]
          rfl
      obtain ⟨d, hd, hds⟩ := hlast
      rw [← hj]
      have hr : rstrip (joinNL fs) = joinNL fs := rstrip_eq_self_of_getLast hd hds
      rw [strip, hr, hj, lstrip_cons_of_nonspace hhd]
  have hsplit : lineSplit (joinNL fs) = fs :=
    lineSplit_joinNL fs hne (fun f hf => ⟨(hprops f hf).1, (hprops f hf).2.1, (hprops f hf).2.2.1⟩)
  have hLF : lineFactsOf (strip (joinNL fs)) = fs := by
    rw [hstrip, lineFactsOf, hsplit]
    exact lineFactsFromPieces_fixed fs
      (fun f hf => ⟨(hprops f hf).1, (hprops f hf).2.1, (hprops f hf).2.2.2⟩)
  rw [extract_eq_of_lineFacts hLF hne, List.take_of_length_le hlen]

/-! ### Marker-word analysis of the fallback inputs (claim C3, case B) -/

theorem isMarkerWord_num {ds : List Char} {p : Char} (hne : ds ≠ [])
    (hall : ∀ c ∈ ds, isDigit c = true) (hp : isNumPunct p = true) :
    isMarkerWord (ds ++ [p]) = true := by
  have hpd : ¬isDigit p = true := by simp [isDigit_false_of_isNumPunct hp]
  have ht : (ds ++ [p]).takeWhile isDigit = ds := by
    rw [takeWhile_append_of_all hall, List.takeWhile_cons_of_neg hpd, List.append_nil]
  have hd : (ds ++ [p]).dropWhile isDigit = [p] := by
    rw [dropWhile_append_of_all hall, List.dropWhile_cons_of_neg hpd]
  unfold isMarkerWord
  rw [ht, hd]
  apply Bool.or_eq_true_iff.mpr
  right
  simp [hp, hne]

theorem isMarkerWord_bull {b : Char} (hb : isBullet b = true) :
    isMarkerWord [b] = true := by
  unfold isMarkerWord
  apply Bool.or_eq_true_iff.mpr
  left
  exact hb

theorem isMarkerWord_inv {w : List Char} (h : isMarkerWord w = true) :
    (∃ b, w = [b] ∧ isBullet b = true)
    ∨ (∃ ds p, w = ds ++ [p] ∧ ds ≠ [] ∧ (∀ c ∈ ds, isDigit c = true)
        ∧ isNumPunct p = true) := by
  unfold isMarkerWord at h
  rcases Bool.or_eq_true_iff.mp h with h1 | h2
  · cases w with
    | nil => simp at h1
    | cons b t =>
      cases t with
      | nil => exact Or.inl ⟨b, rfl, h1⟩
      | cons b2 t2 => simp at h1
  · rcases (by simpa using h2 : !(w.takeWhile isDigit).isEmpty = true
        ∧ (match w.dropWhile isDigit with
            | [p] => isNumPunct p
            | _ => false) = true) with ⟨hne, hmt⟩
    cases hd : w.dropWhile isDigit with
    | nil => rw [hd] at hmt; simp at hmt
    | cons p q =>
      cases q with
      | nil =>
        rw [hd] at hmt
        refine Or.inr ⟨w.takeWhile isDigit, p, ?_,
          by simpa [List.isEmpty_iff] using hne,
          fun c hc => List.mem_takeWhile_imp hc, hmt⟩
        conv_lhs => rw [← List.takeWhile_append_dropWhile (p := isDigit) (l := w)]
        rw [hd]
      | cons p2 q2 => rw [hd] at hmt; simp at hmt

theorem matchMarker_some_inv {x r : List Char} (h : matchMarker x = some r) :
    (∃ ds p rest2, x = ds ++ p :: rest2 ∧ ds ≠ [] ∧ (∀ c ∈ ds, isDigit c = true)
      ∧ isNumPunct p = true ∧ r = rest2.dropWhile isSpace)
    ∨ (∃ b rest2, x = b :: rest2 ∧ isBullet b = true
        ∧ r = rest2.dropWhile isSpace) := by
  unfold matchMarker at h
  by_cases hd : x.takeWhile isDigit ≠ []
  · rw [if_pos hd] at h
    cases he : x.dropWhile isDigit with
    | nil => rw [he] at h; cases h
    | cons p rest =>
      rw [he] at h
      have h2 : (if isNumPunct p = true then some (rest.dropWhile isSpace) else none)
          = some r := h
      by_cases hp : isNumPunct p = true
      · rw [if_pos hp] at h2
        injection h2 with h3
        refine Or.inl ⟨x.takeWhile isDigit, p, rest, ?_, hd,
          fun c hc => List.mem_takeWhile_imp hc, hp, h3.symm⟩
        conv_lhs => rw [← List.takeWhile_append_dropWhile (p := isDigit) (l := x)]
        rw [he]
      · rw [if_neg hp] at h2
        cases h2
  · rw [if_neg hd] at h
    cases x with
    | nil => cases h
    | cons b rest =>
      have h2 : (if isBullet b = true then some (rest.dropWhile isSpace) else none)
          = some r := h
      by_cases hb : isBullet b = true
      · rw [if_pos hb] at h2
        injection h2 with h3
        exact Or.inr ⟨b, rest, rfl, hb, h3.symm⟩
      · rw [if_neg hb] at h2
        cases h2

theorem words_marker_of_clean_strip_nil {l : List Char}
    (h : clean_fact_line (strip l) = []) :
    ∀ w ∈ words l, isMarkerWord w = true := by
  intro w hw
  have hwl : words l = words (strip l) := (words_strip l).symm
  have hlt : lstrip (strip l) = strip l := lstrip_idem (rstrip l)
  cases hm : matchMarker (strip l) with
  | none =>
    have hcl : clean_fact_line (strip l) = strip (strip l) := by
      unfold clean_fact_line stripMarker
      rw [hlt, hm]
    rw [hcl, strip_idem] at h
    rw [hwl, h, words_nil] at hw
    exact absurd hw (List.not_mem_nil w)
  | some r =>
    have hcl : clean_fact_line (strip l) = strip r := by
      unfold clean_fact_line stripMarker
      rw [hlt, hm]
    rw [hcl] at h
    have hrsp : ∀ c ∈ r, isSpace c = true := strip_eq_nil_iff.mp h
    rcases matchMarker_some_inv hm
      with ⟨ds, p, rest2, heq, hdne, hall, hp, hr⟩ | ⟨b, rest2, heq, hb, hr⟩
    · have hrest2 : ∀ c ∈ rest2, isSpace c = true := by
        intro c hc
        conv at hc => rw [← List.takeWhile_append_dropWhile (p := isSpace) (l := rest2)]
        rcases List.mem_append.mp hc with hc | hc
        · exact List.mem_takeWhile_imp hc
        · exact hrsp c (by rw [hr]; exact hc)
      have hwords : words (strip l) = [ds ++ [p]] := by
        rw [heq, show ds ++ p :: rest2 = (ds ++ [p]) ++ rest2 by simp]
        refine words_word_spaces (by simp) ?_ hrest2
        intro c hc
        rcases List.mem_append.mp hc with hc | hc
        · exact isSpace_false_of_isDigit (hall c hc)
        · rcases List.mem_singleton.mp hc with rfl
          exact isSpace_false_of_isNumPunct hp
      rw [hwl, hwords] at hw
      rcases List.mem_singleton.mp hw with rfl
      exact isMarkerWord_num hdne hall hp
    · have hrest2 : ∀ c ∈ rest2, isSpace c = true := by
        intro c hc
        conv at hc => rw [← List.takeWhile_append_dropWhile (p := isSpace) (l := rest2)]
        rcases List.mem_append.mp hc with hc | hc
        · exact List.mem_takeWhile_imp hc
        · exact hrsp c (by rw [hr]; exact hc)
      have hwords : words (strip l) = [[b]] := by
        rw [heq, show b :: rest2 = [b] ++ rest2 by simp]
        refine words_word_spaces (by simp) ?_ hrest2
        intro c hc
        rcases List.mem_singleton.mp hc with rfl
        exact isSpace_false_of_isBullet hb
      rw [hwl, hwords] at hw
      rcases List.mem_singleton.mp hw with rfl
      exact isMarkerWord_bull hb

theorem fallback_lines_all_markers {rt : List Char} (h : lineFactsOf rt = []) :
    ∀ w ∈ words rt, isMarkerWord w = true := by
  have hp : ∀ q ∈ lineSplit rt, clean_fact_line (strip q) = [] := by
    intro q hq
    by_cases hsq : strip q = []
    · rw [hsq]
      exact clean_nil
    · by_contra hc
      have h1 : clean_fact_line (strip q) ∈ lineFactsOf rt := by
        unfold lineFactsOf lineFactsFromPieces
        rw [List.mem_filter]
        refine ⟨?_, by simpa using hc⟩
        rw [List.mem_map]
        refine ⟨strip q, ?_, rfl⟩
        rw [List.mem_filter]
        exact ⟨List.mem_map.mpr ⟨q, hq, rfl⟩, by simpa using hsq⟩
      rw [h] at h1
      exact absurd h1 (List.not_mem_nil _)
  intro w hw
  rw [lineJoin_words (lineSplit_lineJoin rt), List.mem_flatten] at hw
  obtain ⟨ws, hws, hwmem⟩ := hw
  rw [List.mem_map] at hws
  obtain ⟨q, hq, rfl⟩ := hws
  exact words_marker_of_clean_strip_nil (hp q hq) w hwmem

theorem words_first_word {x : List Char} (hx : x ≠ []) (hl : lstrip x = x) :
    ∃ w r, x = w ++ r ∧ words x = w :: words r ∧ w ≠ []
      ∧ (∀ c ∈ w, isSpace c = false) := by
  cases x with
  | nil => exact absurd rfl hx
  | cons c t =>
    have hc : isSpace c = false := by
      cases hcs : isSpace c with
      | false => rfl
      | true =>
        rw [lstrip_cons_of_space hcs] at hl
        have := (List.dropWhile_sublist (l := t) isSpace).length_le
        have h2 : (lstrip t).length = (c :: t).length := by rw [hl]
        simp only [List.length_cons, lstrip] at h2 ⊢
        omega
    refine ⟨c :: t.takeWhile notSpace, t.dropWhile notSpace, ?_, ?_, by simp, ?_⟩
    · rw [List.cons_append, List.takeWhile_append_dropWhile]
    · exact words_cons_nonspace hc
    · intro e he
      rcases List.mem_cons.mp he with rfl | he
      · exact hc
      · have := List.mem_takeWhile_imp he
        simpa [notSpace] using this

theorem marker_words_clean {s : List Char} (hls : lstrip s = s) (hs : s ≠ [])
    (hmk : ∀ w ∈ words s, isMarkerWord w = true)
    (hcl : clean_fact_line s ≠ []) :
    matchMarker (clean_fact_line s) ≠ none := by
  obtain ⟨w, r, hsw, hws, hwne, hwns⟩ := words_first_word hs hls
  have hw := hmk w (by rw [hws]; exact List.mem_cons_self _ _)
  have hmm2 : matchMarker s = some (r.dropWhile isSpace) := by
    rcases isMarkerWord_inv hw with ⟨b, rfl, hb⟩ | ⟨ds, p, rfl, hdne, hall, hp⟩
    · rw [hsw, List.singleton_append]
      exact matchMarker_bullet hb
    · rw [hsw, show (ds ++ [p]) ++ r = ds ++ p :: r by simp]
      exact matchMarker_digits hdne hall hp
  have hf : clean_fact_line s = strip (r.dropWhile isSpace) := by
    unfold clean_fact_line stripMarker
    rw [hls, hmm2]
  have hwf : ∀ w2 ∈ words (clean_fact_line s), isMarkerWord w2 = true := by
    intro w2 hw2
    rw [hf] at hw2
    rw [words_strip, show words (r.dropWhile isSpace) = words (lstrip r) from rfl,
      words_lstrip] at hw2
    apply hmk
    rw [hws]
    exact List.mem_cons_of_mem _ hw2
  have hfls : lstrip (clean_fact_line s) = clean_fact_line s := by
    rw [hf]
    exact lstrip_idem _
  obtain ⟨w2, r2, hfeq, hws2, hw2ne, _⟩ := words_first_word hcl hfls
  have hw2m := hwf w2 (by rw [hws2]; exact List.mem_cons_self _ _)
  rcases isMarkerWord_inv hw2m with ⟨b, rfl, hb⟩ | ⟨ds, p, rfl, hdne, hall, hp⟩
  · rw [hfeq, List.singleton_append, matchMarker_bullet hb]
    simp
  · rw [hfeq, show (ds ++ [p]) ++ r2 = ds ++ p :: r2 by simp,
      matchMarker_digits hdne hall hp]
    simp

theorem mem_collectSentences : ∀ (ss acc : List (List Char)) (f : List Char),
    f ∈ collectSentences ss acc →
    f ∈ acc ∨ ∃ s ∈ ss, f = clean_fact_line s ∧ clean_fact_line s ≠ [] := by
  intro ss
  induction ss with
  | nil =>
    intro acc f h
    exact Or.inl h
  | cons s ss ih =>
    intro acc f h
    rw [collectSentences] at h
    by_cases hc : clean_fact_line s = []
    · rw [if_pos hc] at h
      by_cases h3 : 3 ≤ acc.length
      · rw [if_pos h3] at h
        exact Or.inl h
      · rw [if_neg h3] at h
        rcases ih acc f h with h4 | ⟨s2, hs2, h5⟩
        · exact Or.inl h4
        · exact Or.inr ⟨s2, List.mem_cons_of_mem _ hs2, h5⟩
    · rw [if_neg hc] at h
      by_cases h3 : 3 ≤ (acc ++ [clean_fact_line s]).length
      · rw [if_pos h3] at h
        rcases List.mem_append.mp h with h4 | h4
        · exact Or.inl h4
        · rcases List.mem_singleton.mp h4 with rfl
          exact Or.inr ⟨s, List.mem_cons_self _ _, rfl, hc⟩
      · rw [if_neg h3] at h
        rcases ih _ f h with h4 | ⟨s2, hs2, h5⟩
        · rcases List.mem_append.mp h4 with h5 | h5
          · exact Or.inl h5
          · rcases List.mem_singleton.mp h5 with rfl
            exact Or.inr ⟨s, List.mem_cons_self _ _, rfl, hc⟩
        · exact Or.inr ⟨s2, List.mem_cons_of_mem _ hs2, h5⟩

theorem mem_sentenceFactsOf {rt : List Char} {f : List Char}
    (h : f ∈ sentenceFactsOf rt) :
    ∃ s ∈ sentencesOf rt, f = clean_fact_line s ∧ f ≠ [] := by
  rcases mem_collectSentences (sentencesOf rt) [] f h with h2 | ⟨s, hs, hfe, hne⟩
  · exact absurd h2 (List.not_mem_nil f)
  · exact ⟨s, hs, hfe, by rw [hfe]; exact hne⟩

/-! ### Claim C3 -/

/-- C3: the extraction pipeline is idempotent on cleaned output.  Whenever the
extractor produces a fact list whose entries carry no leading enumeration
marker, re-running the extractor on that output — the facts joined one per
line — returns the same list unchanged. -/
theorem c3_extract_idempotent (raw : List Char) (fs : List (List Char))
    (hx : get_movie_facts_extract raw = some fs)
    (hm : ∀ f ∈ fs, matchMarker f = none) :
    get_movie_facts_extract (joinNL fs) = some fs := by
  have hlen : fs.length ≤ 6 := by
    rcases extract_some_inv hx with ⟨_, rfl⟩ | ⟨_, _, rfl⟩ <;>
      exact List.length_take_le _ _
  rcases extract_some_inv hx with ⟨hlf, rfl⟩ | ⟨hlf, hsf, rfl⟩
  · -- line-strategy case: output facts are cleaned line pieces
    apply extract_joinNL_clean (take_six_ne_nil hlf) hlen
    intro f hf
    have hf2 : f ∈ lineFactsOf (strip raw) := (List.take_sublist 6 _).subset hf
    obtain ⟨hne, p, hp, hfe⟩ := mem_lineFactsFromPieces hf2
    refine ⟨hne, by rw [hfe]; exact strip_clean _, ?_, hm f hf⟩
    intro hmem
    have hnl : '\n' ∉ p := lineSplit_pieces_no_nl p hp
    apply hnl
    rw [hfe] at hmem
    exact (strip_sublist p).subset ((clean_sublist (strip p)).subset hmem)
  · -- fallback case: impossible under the no-marker hypothesis
    exfalso
    obtain ⟨f0, hf0⟩ : ∃ f0, f0 ∈ (sentenceFactsOf (strip raw)).take 6 := by
      cases hfc : (sentenceFactsOf (strip raw)).take 6 with
      | nil => exact absurd hfc (take_six_ne_nil hsf)
      | cons a t => exact ⟨a, List.mem_cons_self _ _⟩
    have hf0s : f0 ∈ sentenceFactsOf (strip raw) := (List.take_sublist 6 _).subset hf0
    obtain ⟨s, hs, hfe, hfne⟩ := mem_sentenceFactsOf hf0s
    obtain ⟨s0, hs0, hseq⟩ : ∃ s0 ∈ sentSplit (strip raw), s = strip s0 := by
      unfold sentencesOf at hs
      rw [List.mem_filter] at hs
      obtain ⟨hs1, _⟩ := hs
      rw [List.mem_map] at hs1
      obtain ⟨s0, hs0, hseq⟩ := hs1
      exact ⟨s0, hs0, hseq.symm⟩
    have hsne : s ≠ [] := by
      unfold sentencesOf at hs
      rw [List.mem_filter] at hs
      simpa using hs.2
    have hmks : ∀ w ∈ words s, isMarkerWord w = true := by
      intro w hw
      apply fallback_lines_all_markers hlf
      rw [sentJoin_words (sentSplit_sentJoin (strip raw)), List.mem_flatten]
      refine ⟨words s0, List.mem_map.mpr ⟨s0, hs0, rfl⟩, ?_⟩
      rw [hseq, words_strip] at hw
      exact hw
    have hsls : lstrip s = s := by
      rw [hseq]
      exact lstrip_idem _
    have hmarked := marker_words_clean hsls hsne hmks (by rw [← hfe]; exact hfne)
    apply hmarked
    rw [← hfe]
    exact hm f0 hf0

/-- Witness for C3: the extractor output on "1. First good fact.\n2. Second
good fact." is marker-free, and re-extracting the joined facts returns it
unchanged. -/
theorem c3_extract_idempotent_witness :
    (get_movie_facts_extract "1. First good fact.\n2. Second good fact.".data
        = some ["First good fact.".data, "Second good fact.".data]
      ∧ ∀ f ∈ [("First good fact.".data : List Char), "Second good fact.".data],
          matchMarker f = none)
    ∧ get_movie_facts_extract
        (joinNL ["First good fact.".data, "Second good fact.".data])
        = some ["First good fact.".data, "Second good fact.".data] :=
  ⟨⟨by decide, by decide⟩,
    c3_extract_idempotent "1. First good fact.\n2. Second good fact.".data
      ["First good fact.".data, "Second good fact.".data] (by decide) (by decide)⟩

end MovieTrivia
